import Mathlib

/-!
# Two-level paged memory manager (src/mem.c)

A shallow embedding of `src/mem.c`: the frame-status table `_mem_stat`, the byte
arena `_ram`, the per-process segment / second-level tables, address
decomposition, `translate`, `alloc_mem`, `read_mem` and `write_mem`.

Conventions of the embedding.
* `addr_t` and `uint32_t` values are natural numbers reduced modulo `2 ^ 32`.
* The constants of `mem.h` (not among the sources) are the fields of `Config`.
* The two global arrays are total functions on indices; an access whose index
  is outside the declared array makes the operation return `none`.
  `mark_loop_raw` and `alloc_mem_raw` run the marking loop with its write to
  `_mem_stat` left unchecked, as the source has it.
* A table of `page_table_t` is the list of its first `size` entries.
-/

namespace MemSim

/-- Build-time constants declared in `mem.h`, taken as parameters. -/
structure Config where
  OFFSET_LEN : Nat
  PAGE_LEN : Nat
  PAGE_SIZE : Nat
  NUM_PAGES : Nat
  RAM_SIZE : Nat
  MAX_SEG : Nat
  MAX_SECOND_TABLE : Nat
  deriving DecidableEq, Repr

/-- Modulus of `addr_t` / `uint32_t` arithmetic. -/
def WORD : Nat := 2 ^ 32

/-- One element of `_mem_stat` (lines 9-16). -/
structure mem_stat_t where
  proc : Nat
  index : Int
  next : Int
  deriving DecidableEq, Repr

/-- Second-level entry (`struct trans_table_t` used inside a second-level table). -/
structure trans_table_t where
  v_index : Nat
  p_index : Nat
  next : Int
  deriving DecidableEq, Repr

/-- Segment-table entry: a `struct trans_table_t` together with the second-level
table its `page_table` pointer refers to. -/
structure seg_entry_t where
  v_index : Nat
  p_index : Nat
  next : Int
  page_table : List trans_table_t
  deriving DecidableEq, Repr

/-- The fields of `struct pcb_t` used by mem.c. -/
structure pcb_t where
  pid : Nat
  bp : Nat
  seg_table : List seg_entry_t
  deriving DecidableEq, Repr

/-- The global state of mem.c: `_mem_stat` and `_ram`. -/
structure Store where
  mem_stat : Nat → mem_stat_t
  ram : Nat → Nat

/-- The store after `init_mem` (lines 20-25): both arrays zeroed. -/
def init_mem : Store :=
  { mem_stat := fun _ => ⟨0, 0, 0⟩, ram := fun _ => 0 }

/-- Offset of a virtual address (lines 28-31): `addr & ~((~0U) << OFFSET_LEN)`. -/
def get_offset (cfg : Config) (addr : Nat) : Nat :=
  addr &&& ((WORD - 1) - ((WORD - 1) <<< cfg.OFFSET_LEN) % WORD)

/-- First-level index (lines 34-37). -/
def get_first_lv (cfg : Config) (addr : Nat) : Nat :=
  addr >>> (cfg.OFFSET_LEN + cfg.PAGE_LEN)

/-- Second-level index (lines 40-43); the subtraction is that of `addr_t`. -/
def get_second_lv (cfg : Config) (addr : Nat) : Nat :=
  ((addr >>> cfg.OFFSET_LEN) + WORD - ((get_first_lv cfg addr) <<< cfg.PAGE_LEN) % WORD) % WORD

/-- Linear search of a table for the first entry whose `v_index` is `index`
(lines 46-57). The result is the position of the entry and the entry itself;
`none` stands for `NULL`. -/
def get_trans_table {α : Type} (key : α → Nat) (index : Nat) : List α → Option (Nat × α)
  | [] => none
  | e :: rest =>
    if key e = index then some (0, e)
    else (get_trans_table key index rest).map (fun r => (r.1 + 1, r.2))

/-- Address translation (lines 62-90). `some pa` stands for "returns 1 and
stores `pa` in `*physical_addr`", `none` for "returns 0". The function reads
the process tables and returns nothing else. -/
def translate (cfg : Config) (virtual_addr : Nat) (proc : pcb_t) : Option Nat :=
  let offset := get_offset cfg virtual_addr
  let first_lv := get_first_lv cfg virtual_addr
  let second_lv := get_second_lv cfg virtual_addr
  match get_trans_table seg_entry_t.v_index first_lv proc.seg_table with
  | none => none
  | some (_, first_lv_table) =>
    match get_trans_table trans_table_t.v_index second_lv first_lv_table.page_table with
    | none => none
    | some (_, second_lv_table) =>
      some (((second_lv_table.p_index <<< cfg.OFFSET_LEN) % WORD) ||| offset)

/-- Which return statement of `alloc_mem` was taken. -/
inductive alloc_status where
  | ok
  | out_of_memory
  | seg_full
  | page_full
  deriving DecidableEq, Repr

/-- The free-run scan of `alloc_mem` (lines 109-125). `fuel` is the number of
iterations left, `NUM_PAGES - i`. The result `some (i, count)` gives the values
of `i` and `count` at the `break` (`mem_avail = 1`); `none` means the loop ran
to `i = NUM_PAGES` with `mem_avail = 0`. -/
def scan_loop (stat : Nat → mem_stat_t) (num_pages : Nat) : Nat → Nat → Nat → Option (Nat × Nat)
  | 0, _, _ => none
  | fuel + 1, i, count =>
    if (stat i).proc = 0 then
      if count + 1 = num_pages then some (i, count + 1)
      else scan_loop stat num_pages fuel (i + 1) (count + 1)
    else scan_loop stat num_pages fuel (i + 1) 0

/-- The whole scan, from `i = 0`, `count = 0`. -/
def scan (cfg : Config) (stat : Nat → mem_stat_t) (num_pages : Nat) : Option (Nat × Nat) :=
  scan_loop stat num_pages cfg.NUM_PAGES 0 0

/-- Number of pages computed at line 97. -/
def num_pages_of (cfg : Config) (size : Nat) : Nat :=
  if size % cfg.PAGE_SIZE ≠ 0 then size / cfg.PAGE_SIZE else (size / cfg.PAGE_SIZE + 1) % WORD

/-- Table extension for frame `i` (lines 155-205): look up, or append, the
first-level entry, then the second-level entry. `i << OFFSET_LEN` is reduced to
an `addr_t`. The heap allocation of line 177 is taken to succeed. The result
carries the segment table as the source leaves it on each return path. -/
def add_entries (cfg : Config) (i : Nat) (seg_table : List seg_entry_t) :
    alloc_status × List seg_entry_t :=
  let virtual_addr := (i <<< cfg.OFFSET_LEN) % WORD
  let first_lv_index := get_first_lv cfg virtual_addr
  let second_lv_index := get_second_lv cfg virtual_addr
  match get_trans_table seg_entry_t.v_index first_lv_index seg_table with
  | none =>
    if seg_table.length = cfg.MAX_SEG then (alloc_status.seg_full, seg_table)
    else if 0 = cfg.MAX_SECOND_TABLE then
      (alloc_status.page_full, seg_table ++ [⟨first_lv_index, i, -1, []⟩])
    else
      (alloc_status.ok, seg_table ++ [⟨first_lv_index, i, -1, [⟨second_lv_index, i, -1⟩]⟩])
  | some (k, first_lv_table) =>
    match get_trans_table trans_table_t.v_index second_lv_index first_lv_table.page_table with
    | some _ => (alloc_status.ok, seg_table)
    | none =>
      if first_lv_table.page_table.length = cfg.MAX_SECOND_TABLE then
        (alloc_status.page_full, seg_table)
      else
        (alloc_status.ok, seg_table.set k
          { first_lv_table with
            page_table := first_lv_table.page_table ++ [⟨second_lv_index, i, -1⟩] })

/-- The marking loop `for (i = start_index; i <= end_index; i++)` (lines 141-206).
`fuel` is the number of iterations left, `end_index + 1 - i`. `none`: the loop
wrote `_mem_stat[i]` with `i` outside the array. Otherwise the status tells
whether the loop ran to its end or returned early, with the frame table and the
segment table at that point. -/
def mark_loop (cfg : Config) (pid start_index end_index : Nat) :
    Nat → Nat → (Nat → mem_stat_t) → List seg_entry_t →
      Option (alloc_status × (Nat → mem_stat_t) × List seg_entry_t)
  | 0, _, stat, seg_table => some (alloc_status.ok, stat, seg_table)
  | fuel + 1, i, stat, seg_table =>
    if i < cfg.NUM_PAGES then
      let stat1 := Function.update stat i
        ⟨pid, (i : Int) - (start_index : Int), if i = end_index then -1 else (i : Int) + 1⟩
      match add_entries cfg i seg_table with
      | (alloc_status.ok, seg1) => mark_loop cfg pid start_index end_index fuel (i + 1) stat1 seg1
      | (st, seg1) => some (st, stat1, seg1)
    else none

/-- What a call of `alloc_mem` leaves behind. -/
structure alloc_result where
  ret : Nat
  status : alloc_status
  store : Store
  proc : pcb_t

/-- Function `alloc_mem` (lines 92-210). `start_index = i - count + 1` is computed
on naturals (`count ≤ i + 1` at the `break`). Line 140 is read as
`int end_index = i + 1;`, without the stray characters that follow its `=`. -/
def alloc_mem (cfg : Config) (size : Nat) (st : Store) (proc : pcb_t) : Option alloc_result :=
  let num_pages := num_pages_of cfg size
  match scan cfg st.mem_stat num_pages with
  | none => some ⟨0, alloc_status.out_of_memory, st, proc⟩
  | some (i, count) =>
    let ret_mem := proc.bp
    let bp := (proc.bp + num_pages * cfg.PAGE_SIZE) % WORD
    let start_index := i + 1 - count
    let end_index := i + 1
    match mark_loop cfg proc.pid start_index end_index (end_index + 1 - start_index)
        start_index st.mem_stat proc.seg_table with
    | none => none
    | some (alloc_status.ok, stat, seg) =>
      some ⟨ret_mem, alloc_status.ok, { st with mem_stat := stat },
        { proc with bp := bp, seg_table := seg }⟩
    | some (status, stat, seg) =>
      some ⟨0, status, { st with mem_stat := stat }, { proc with bp := bp, seg_table := seg }⟩

/-- Function `read_mem` (lines 218-230): the return code and the byte stored in
`*data`, if any. `none`: `_ram` was indexed outside the array. -/
def read_mem (cfg : Config) (st : Store) (address : Nat) (proc : pcb_t) :
    Option (Nat × Option Nat) :=
  match translate cfg address proc with
  | some physical_addr =>
    if physical_addr < cfg.RAM_SIZE then some (0, some (st.ram physical_addr)) else none
  | none => some (1, none)

/-- Function `write_mem` (lines 232-244): the return code and the new store.
`data` is a `BYTE`. `none`: `_ram` was indexed outside the array. -/
def write_mem (cfg : Config) (st : Store) (address : Nat) (proc : pcb_t) (data : Nat) :
    Option (Nat × Store) :=
  match translate cfg address proc with
  | some physical_addr =>
    if physical_addr < cfg.RAM_SIZE then
      some (0, { st with ram := Function.update st.ram physical_addr (data % 256) })
    else none
  | none => some (1, st)

/-- The configuration of the scenarios of the specification: frames of 4 bytes,
4 frames, 16 bytes of memory, two segments of two pages. -/
def cfg4 : Config :=
  { OFFSET_LEN := 2, PAGE_LEN := 1, PAGE_SIZE := 4, NUM_PAGES := 4, RAM_SIZE := 16,
    MAX_SEG := 2, MAX_SECOND_TABLE := 2 }

/-- Rounded-up quotient `ceil(size / PAGE_SIZE)`, as the specification words it. -/
def ceil_pages (cfg : Config) (size : Nat) : Nat :=
  (size + cfg.PAGE_SIZE - 1) / cfg.PAGE_SIZE

/-- Owners recorded in the first `n` slots of a frame-status table. -/
def owners (stat : Nat → mem_stat_t) (n : Nat) : List Nat :=
  (List.range n).map (fun i => (stat i).proc)

/-- A fresh process descriptor: empty segment table, break pointer 0. -/
def fresh_proc (pid : Nat) : pcb_t := ⟨pid, 0, []⟩

/-- A process of `cfg4` whose tables map virtual pages 0 and 1 to frames 0 and 1. -/
def proc_two_pages : pcb_t :=
  ⟨1, 4, [⟨0, 0, -1, [⟨0, 0, -1⟩, ⟨1, 1, -1⟩]⟩]⟩

/-- The fresh store with byte `0xAB` at physical address 0. -/
def store_ab : Store :=
  { init_mem with ram := Function.update init_mem.ram 0 (0xAB % 256) }

/-- The frames `start_index .. end_index` over which the marking loop of a call
`alloc_mem(size, _)` runs in the frame table `stat` (lines 139-141); empty when
the scan finds no run. -/
def assigned_frames (cfg : Config) (size : Nat) (stat : Nat → mem_stat_t) : List Nat :=
  match scan cfg stat (num_pages_of cfg size) with
  | none => []
  | some (i, count) => List.range' (i + 1 - count) (i + 1 + 1 - (i + 1 - count))

/-- The store together with the descriptors of the processes of the system. -/
structure Sys where
  store : Store
  procs : List pcb_t

/-- The call `alloc_mem(size, &procs[k])` on a system. `none`: no such process,
or the call indexed `_mem_stat` outside the array. -/
def sys_alloc (cfg : Config) (size k : Nat) (s : Sys) : Option (alloc_result × Sys) :=
  match s.procs[k]? with
  | none => none
  | some p =>
    match alloc_mem cfg size s.store p with
    | none => none
    | some r => some (r, ⟨r.store, s.procs.set k r.proc⟩)

/-- A sequence of calls `(size, k)` of `alloc_mem`, run in order. Next to the
system, the run keeps the frame sets assigned by its successful calls, the
latest first. -/
def run_calls (cfg : Config) : List (Nat × Nat) → Sys → List (List Nat) →
    Option (Sys × List (List Nat))
  | [], s, hist => some (s, hist)
  | (size, k) :: rest, s, hist =>
    match sys_alloc cfg size k s with
    | none => none
    | some (r, s1) =>
      run_calls cfg rest s1
        (if r.status = alloc_status.ok then assigned_frames cfg size s.store.mem_stat :: hist
         else hist)

/-- The system right after `init_mem`, with the given process descriptors. -/
def init_sys (procs0 : List pcb_t) : Sys := ⟨init_mem, procs0⟩

/-- States reachable from `init_mem` by calls of `alloc_mem`. -/
def Reachable (cfg : Config) (procs0 : List pcb_t) (s : Sys) : Prop :=
  ∃ calls hist, run_calls cfg calls (init_sys procs0) [] = some (s, hist)

/-- Frames `s, s + 1, ..., s + n - 1` of `stat` all have owner 0. -/
def free_run (stat : Nat → mem_stat_t) (s n : Nat) : Prop :=
  ∀ f, s ≤ f → f < s + n → (stat f).proc = 0

/-- The owned frames of `stat` are exactly the frames below `m`. -/
def owned_below (stat : Nat → mem_stat_t) (m : Nat) : Prop :=
  ∀ f, (stat f).proc ≠ 0 ↔ f < m

/-- Every frame number stored in a second-level entry of a process of `s` is a
frame of the table whose recorded owner is that process. -/
def tables_own_frames (cfg : Config) (s : Sys) : Prop :=
  ∀ p ∈ s.procs, ∀ e ∈ p.seg_table, ∀ x ∈ e.page_table,
    x.p_index < cfg.NUM_PAGES ∧ (s.store.mem_stat x.p_index).proc = p.pid

/-- Two fresh processes with pids 1 and 2. -/
def procs12 : List pcb_t := [fresh_proc 1, fresh_proc 2]

/-- Two requests of 6 bytes, by process 0 and then by process 1 of the list. -/
def calls66 : List (Nat × Nat) := [(6, 0), (6, 1)]

/-- The system a run of calls ends in (the initial one if the run breaks off). -/
def sys_after (cfg : Config) (calls : List (Nat × Nat)) (procs0 : List pcb_t) : Sys :=
  match run_calls cfg calls (init_sys procs0) [] with
  | some (s, _) => s
  | none => init_sys procs0

/-- The frame sets assigned by the successful calls of a run. -/
def hist_after (cfg : Config) (calls : List (Nat × Nat)) (procs0 : List pcb_t) :
    List (List Nat) :=
  match run_calls cfg calls (init_sys procs0) [] with
  | some (_, h) => h
  | none => []

/-- Function `free_mem` (lines 212-216): the return code, with the store and
the process descriptor as the call leaves them. -/
def free_mem (st : Store) (_address : Nat) (proc : pcb_t) : Nat × Store × pcb_t :=
  (0, st, proc)

/-- One line of the output of `dump`: the line printed for an occupied frame
(frame number, address range, owner, index, next) or the line printed for a
byte (address, value). -/
inductive dump_line where
  | frame (i lo hi pid : Nat) (index next : Int)
  | byte (j value : Nat)
  deriving DecidableEq, Repr

/-- The inner loop of `dump` (lines 261-270), from `j` for `fuel` iterations
(`fuel` is `((i + 1) << OFFSET_LEN) - 1 - j`). `none`: `_ram` was indexed
outside the array. -/
def dump_bytes (cfg : Config) (ram : Nat → Nat) : Nat → Nat → Option (List dump_line)
  | 0, _ => some []
  | fuel + 1, j =>
    if j < cfg.RAM_SIZE then
      match dump_bytes cfg ram fuel (j + 1) with
      | none => none
      | some rest => some (if ram j ≠ 0 then dump_line.byte j (ram j) :: rest else rest)
    else none

/-- The outer loop of `dump` (lines 249-272), from frame `i` for `fuel`
iterations (`fuel` is `NUM_PAGES - i`). -/
def dump_frames (cfg : Config) (st : Store) : Nat → Nat → Option (List dump_line)
  | 0, _ => some []
  | fuel + 1, i =>
    if (st.mem_stat i).proc ≠ 0 then
      match dump_bytes cfg st.ram (((i + 1) <<< cfg.OFFSET_LEN) - 1 - (i <<< cfg.OFFSET_LEN))
          (i <<< cfg.OFFSET_LEN) with
      | none => none
      | some bytes =>
        match dump_frames cfg st fuel (i + 1) with
        | none => none
        | some rest =>
          some (dump_line.frame i (i <<< cfg.OFFSET_LEN) (((i + 1) <<< cfg.OFFSET_LEN) - 1)
            (st.mem_stat i).proc (st.mem_stat i).index (st.mem_stat i).next :: (bytes ++ rest))
    else dump_frames cfg st fuel (i + 1)

/-- Function `dump` (lines 246-273), as the list of the lines it prints. It
returns no store. -/
def dump (cfg : Config) (st : Store) : Option (List dump_line) :=
  dump_frames cfg st cfg.NUM_PAGES 0

/-- The store reached on `cfg4` from `init_mem` by `alloc_mem(6, P1)` followed
by `write_mem(0, P1, 0xCD)` and `write_mem(3, P1, 0xAB)`, `P1` a fresh process
with pid 1; the fresh store if one of the calls does not return. -/
def store_two_bytes : Store :=
  match alloc_mem cfg4 6 init_mem (fresh_proc 1) with
  | none => init_mem
  | some r =>
    match write_mem cfg4 r.store 0 r.proc 0xCD with
    | none => init_mem
    | some (_, st1) =>
      match write_mem cfg4 st1 3 r.proc 0xAB with
      | none => init_mem
      | some (_, st2) => st2

/-- The configuration `cfg4` with a segment table of a single entry. -/
def cfg_one_seg : Config := { cfg4 with MAX_SEG := 1 }

/-- What `alloc_mem(4, P1)` leaves on the fresh store under `cfg_one_seg`, `P1`
a fresh process with pid 1 (the untouched state if the call does not return). -/
def result_one_seg : alloc_result :=
  match alloc_mem cfg_one_seg 4 init_mem (fresh_proc 1) with
  | some r => r
  | none => ⟨0, alloc_status.out_of_memory, init_mem, fresh_proc 1⟩

/-- The marking loop (lines 141-206) with the write to `_mem_stat[i]` left
unchecked, as the source has it: the same steps as `mark_loop`, and a write at
an index `i ≥ NUM_PAGES` lands past the table, which the model keeps at index
`i` of `stat`, apart from `_ram`. `fuel` is `end_index + 1 - i`. -/
def mark_loop_raw (cfg : Config) (pid start_index end_index : Nat) :
    Nat → Nat → (Nat → mem_stat_t) → List seg_entry_t →
      alloc_status × (Nat → mem_stat_t) × List seg_entry_t
  | 0, _, stat, seg_table => (alloc_status.ok, stat, seg_table)
  | fuel + 1, i, stat, seg_table =>
    let stat1 := Function.update stat i
      ⟨pid, (i : Int) - (start_index : Int), if i = end_index then -1 else (i : Int) + 1⟩
    match add_entries cfg i seg_table with
    | (alloc_status.ok, seg1) =>
      mark_loop_raw cfg pid start_index end_index fuel (i + 1) stat1 seg1
    | (st, seg1) => (st, stat1, seg1)

/-- Function `alloc_mem` (lines 92-210) with the marking loop run unchecked:
the call as it returns also when the loop writes past `_mem_stat`. -/
def alloc_mem_raw (cfg : Config) (size : Nat) (st : Store) (proc : pcb_t) : alloc_result :=
  let num_pages := num_pages_of cfg size
  match scan cfg st.mem_stat num_pages with
  | none => ⟨0, alloc_status.out_of_memory, st, proc⟩
  | some (i, count) =>
    let ret_mem := proc.bp
    let bp := (proc.bp + num_pages * cfg.PAGE_SIZE) % WORD
    let start_index := i + 1 - count
    let end_index := i + 1
    match mark_loop_raw cfg proc.pid start_index end_index (end_index + 1 - start_index)
        start_index st.mem_stat proc.seg_table with
    | (alloc_status.ok, stat, seg) =>
      ⟨ret_mem, alloc_status.ok, { st with mem_stat := stat },
        { proc with bp := bp, seg_table := seg }⟩
    | (status, stat, seg) =>
      ⟨0, status, { st with mem_stat := stat }, { proc with bp := bp, seg_table := seg }⟩

/-- The segment table as the marking loop has it on reaching a frame: the
table extensions for the `d` frames `i, i + 1, ..., i + d - 1` applied in
order; `none` if one of them returns early. -/
def tables_before (cfg : Config) : Nat → Nat → List seg_entry_t → Option (List seg_entry_t)
  | 0, _, seg_table => some seg_table
  | d + 1, i, seg_table =>
    match add_entries cfg i seg_table with
    | (alloc_status.ok, seg1) => tables_before cfg d (i + 1) seg1
    | _ => none

/-- For frame `j` a new segment entry is needed and the segment table holds
`MAX_SEG` entries (the check of line 163). -/
@[reducible] def seg_table_full (cfg : Config) (j : Nat) (seg_table : List seg_entry_t) : Prop :=
  get_trans_table seg_entry_t.v_index
    (get_first_lv cfg ((j <<< cfg.OFFSET_LEN) % WORD)) seg_table = none ∧
  seg_table.length = cfg.MAX_SEG

/-- For frame `j` a new second-level entry is needed and the second-level
table it goes to holds `MAX_SECOND_TABLE` entries (the check of line 192): the
table of the segment entry found, or the empty table of a segment entry that
line 170 has just added. -/
@[reducible] def page_table_full (cfg : Config) (j : Nat) (seg_table : List seg_entry_t) : Prop :=
  (∃ k e, get_trans_table seg_entry_t.v_index
      (get_first_lv cfg ((j <<< cfg.OFFSET_LEN) % WORD)) seg_table = some (k, e) ∧
    get_trans_table trans_table_t.v_index
      (get_second_lv cfg ((j <<< cfg.OFFSET_LEN) % WORD)) e.page_table = none ∧
    e.page_table.length = cfg.MAX_SECOND_TABLE) ∨
  (get_trans_table seg_entry_t.v_index
      (get_first_lv cfg ((j <<< cfg.OFFSET_LEN) % WORD)) seg_table = none ∧
    seg_table.length ≠ cfg.MAX_SEG ∧ 0 = cfg.MAX_SECOND_TABLE)

/-- The configuration `cfg4` with second-level tables of a single entry. -/
def cfg_one_page : Config := { cfg4 with MAX_SECOND_TABLE := 1 }

/-- A configuration of 8 frames of 4 bytes. -/
def cfg8 : Config :=
  { OFFSET_LEN := 2, PAGE_LEN := 1, PAGE_SIZE := 4, NUM_PAGES := 8, RAM_SIZE := 32,
    MAX_SEG := 4, MAX_SECOND_TABLE := 2 }

/-- A store in which frames 0 and 2 are owned (by pids 1 and 2) and every other
frame is free: the free frame 1 lies between two owned frames. -/
def store_gaps : Store :=
  { mem_stat := fun f =>
      if f = 0 then ⟨1, 0, -1⟩ else if f = 2 then ⟨2, 0, -1⟩ else ⟨0, 0, 0⟩,
    ram := fun _ => 0 }

/-! ## Table lookup and translation -/

theorem get_trans_table_find {α : Type} (key : α → Nat) (index : Nat) (l : List α) :
    (get_trans_table key index l).map Prod.snd = l.find? (fun e => key e == index) := by
  induction l with
  | nil => rfl
  | cons e rest ih =>
    by_cases h : key e = index
    · simp [get_trans_table, h]
    · have hb : (key e == index) = false := by simpa using h
      simp only [get_trans_table, h, if_false, List.find?_cons, hb, ← ih, Option.map_map]
      rfl

theorem get_trans_table_none {α : Type} (key : α → Nat) (index : Nat) (l : List α) :
    get_trans_table key index l = none ↔ ∀ e ∈ l, key e ≠ index := by
  induction l with
  | nil => simp [get_trans_table]
  | cons e rest ih =>
    by_cases h : key e = index
    · simp [get_trans_table, h]
    · simp [get_trans_table, h, ih]

theorem get_trans_table_some_find {α : Type} (key : α → Nat) (index : Nat) (l : List α)
    (k : Nat) (e : α) (h : get_trans_table key index l = some (k, e)) :
    l.find? (fun e => key e == index) = some e := by
  rw [← get_trans_table_find, h]; rfl

theorem find_some_get_trans_table {α : Type} (key : α → Nat) (index : Nat) (l : List α)
    (e : α) (h : l.find? (fun e => key e == index) = some e) :
    ∃ k, get_trans_table key index l = some (k, e) := by
  rw [← get_trans_table_find] at h
  cases hg : get_trans_table key index l with
  | none => rw [hg] at h; cases h
  | some r =>
    rw [hg] at h
    obtain ⟨k, e1⟩ := r
    simp only [Option.map_some', Option.some.injEq] at h
    exact ⟨k, by rw [← h]⟩

/-- C10. `translate` is exactly the two-level table walk: it fails iff the
segment table has no entry for the first-level index of the address, or the
second-level table of the first such entry has no entry for the second-level
index; otherwise it yields `(f << OFFSET_LEN) | offset` (in `addr_t`
arithmetic), `f` being the frame of the first matching second-level entry.
The function returns an address only: no store and no table is produced. -/
theorem translate_is_table_walk (cfg : Config) (a : Nat) (proc : pcb_t) :
    (translate cfg a proc = none ↔
      ((∀ e ∈ proc.seg_table, e.v_index ≠ get_first_lv cfg a) ∨
        ∃ e, proc.seg_table.find? (fun e => e.v_index == get_first_lv cfg a) = some e ∧
          ∀ x ∈ e.page_table, x.v_index ≠ get_second_lv cfg a)) ∧
    (∀ e x, proc.seg_table.find? (fun e => e.v_index == get_first_lv cfg a) = some e →
        e.page_table.find? (fun x => x.v_index == get_second_lv cfg a) = some x →
        translate cfg a proc =
          some (((x.p_index <<< cfg.OFFSET_LEN) % WORD) ||| get_offset cfg a)) := by
  constructor
  · cases h1 : get_trans_table seg_entry_t.v_index (get_first_lv cfg a) proc.seg_table with
    | none =>
      have hn := (get_trans_table_none _ _ _).1 h1
      simp only [translate, h1, true_iff]
      exact Or.inl hn
    | some r =>
      obtain ⟨k, e⟩ := r
      have hf := get_trans_table_some_find _ _ _ _ _ h1
      have hmem : e ∈ proc.seg_table := List.mem_of_find?_eq_some hf
      have hkey : e.v_index = get_first_lv cfg a := by
        have := List.find?_some hf
        simpa using this
      cases h2 : get_trans_table trans_table_t.v_index (get_second_lv cfg a) e.page_table with
      | none =>
        have hn := (get_trans_table_none _ _ _).1 h2
        simp only [translate, h1, h2, true_iff]
        exact Or.inr ⟨e, hf, hn⟩
      | some r2 =>
        obtain ⟨k2, x⟩ := r2
        have hf2 := get_trans_table_some_find _ _ _ _ _ h2
        have hx : x ∈ e.page_table := List.mem_of_find?_eq_some hf2
        have hxk : x.v_index = get_second_lv cfg a := by
          have := List.find?_some hf2
          simpa using this
        simp only [translate, h1, h2]
        constructor
        · intro h; cases h
        · rintro (hall | ⟨e1, he1, hall⟩)
          · exact absurd hkey (hall e hmem)
          · rw [hf] at he1
            cases he1
            exact absurd hxk (hall x hx)
  · intro e x he hx
    obtain ⟨k, hk⟩ := find_some_get_trans_table _ _ _ _ he
    obtain ⟨k2, hk2⟩ := find_some_get_trans_table _ _ _ _ hx
    simp only [translate, hk, hk2]

/-! ## Byte accessors -/

/-- C1. Write/read round trip: when `write_mem` at `v` for `proc` returns 0,
`read_mem` at `v` for `proc` in the resulting store returns 0 and delivers the
byte written. -/
theorem write_read_round_trip (cfg : Config) (st st1 : Store) (proc : pcb_t) (v b : Nat)
    (hb : b < 256) (hw : write_mem cfg st v proc b = some (0, st1)) :
    read_mem cfg st1 v proc = some (0, some b) := by
  unfold write_mem at hw
  unfold read_mem
  cases ht : translate cfg v proc with
  | none => rw [ht] at hw; simp at hw
  | some pa =>
    rw [ht] at hw
    by_cases hlt : pa < cfg.RAM_SIZE
    · simp only [hlt, if_true, Option.some.injEq, Prod.mk.injEq, true_and] at hw
      subst hw
      simp [hlt, Function.update_same, Nat.mod_eq_of_lt hb]
    · simp [hlt] at hw

theorem write_read_round_trip_witness :
    (0xAB < 256 ∧ write_mem cfg4 init_mem 0 proc_two_pages 0xAB = some (0, store_ab)) ∧
      read_mem cfg4 store_ab 0 proc_two_pages = some (0, some 0xAB) :=
  ⟨⟨by decide, rfl⟩, write_read_round_trip cfg4 init_mem store_ab proc_two_pages 0 0xAB
    (by decide) rfl⟩

/-! ## Allocation: the failure path of the scan -/

/-- C9. When the scan of the frame-status table finds no run, `alloc_mem`
returns 0 and the store (frame-status table and byte arena) and the process
descriptor (break pointer, segment table, second-level tables) are those it was
given. -/
theorem alloc_mem_no_run_no_effect (cfg : Config) (size : Nat) (st : Store) (proc : pcb_t)
    (h : scan cfg st.mem_stat (num_pages_of cfg size) = none) :
    alloc_mem cfg size st proc = some ⟨0, alloc_status.out_of_memory, st, proc⟩ := by
  simp only [alloc_mem, h]

theorem alloc_mem_no_run_no_effect_witness :
    (owners (sys_after cfg4 calls66 procs12).store.mem_stat 4 = [1, 1, 2, 2] ∧
      (sys_after cfg4 calls66 procs12).procs[0]? = some proc_two_pages ∧
      num_pages_of cfg4 6 = 1 ∧
      scan cfg4 (sys_after cfg4 calls66 procs12).store.mem_stat (num_pages_of cfg4 6) = none) ∧
    alloc_mem cfg4 6 (sys_after cfg4 calls66 procs12).store proc_two_pages =
      some ⟨0, alloc_status.out_of_memory, (sys_after cfg4 calls66 procs12).store,
        proc_two_pages⟩ :=
  ⟨⟨by decide, by decide, by decide, by decide⟩,
    alloc_mem_no_run_no_effect cfg4 6 (sys_after cfg4 calls66 procs12).store proc_two_pages
      (by decide)⟩

/-! ## The scan and the marking loop -/

theorem scan_loop_owned_below (stat : Nat → mem_stat_t) (n m : Nat) (hm : owned_below stat m) :
    ∀ (fuel i c j c1 : Nat), (i ≤ m → c = 0) → (m ≤ i → c = i - m) →
      scan_loop stat n fuel i c = some (j, c1) →
      c1 = n ∧ j + 1 = m + n ∧ j < i + fuel ∧ m ≤ j := by
  intro fuel
  induction fuel with
  | zero => intro i c j c1 _ _ h; simp [scan_loop] at h
  | succ fuel ih =>
    intro i c j c1 h1 h2 h
    unfold scan_loop at h
    by_cases hp : (stat i).proc = 0
    · have hmi : m ≤ i := by
        by_contra hlt
        exact ((hm i).2 (by omega)) hp
      have hc := h2 hmi
      rw [if_pos hp] at h
      by_cases hn : c + 1 = n
      · rw [if_pos hn] at h
        simp only [Option.some.injEq, Prod.mk.injEq] at h
        omega
      · rw [if_neg hn] at h
        have := ih (i + 1) (c + 1) j c1 (by omega) (by omega) h
        omega
    · have hlt : i < m := (hm i).1 hp
      rw [if_neg hp] at h
      have := ih (i + 1) 0 j c1 (by omega) (by omega) h
      omega

/-- At the `break` of the scan `count ≤ i + 1`: the subtraction of line 139 does
not go below zero. -/
theorem scan_loop_count_le (stat : Nat → mem_stat_t) (n : Nat) :
    ∀ (fuel i c j c1 : Nat), c ≤ i →
      scan_loop stat n fuel i c = some (j, c1) → c1 ≤ j + 1 ∧ c1 = n := by
  intro fuel
  induction fuel with
  | zero => intro i c j c1 _ h; simp [scan_loop] at h
  | succ fuel ih =>
    intro i c j c1 hc h
    unfold scan_loop at h
    split at h
    · split at h
      · simp only [Option.some.injEq, Prod.mk.injEq] at h
        omega
      · exact ih (i + 1) (c + 1) j c1 (by omega) h
    · exact ih (i + 1) 0 j c1 (by omega) h

/-- The scan is a first-fit search. From a position `i` with `count = c`, where
`c < n` is the length of the free run that ends just before `i` and no run of
`n` free frames ends before `i`: a `break` at `j` means frames
`j + 1 - n .. j` are free and no run of `n` free frames ends before `j`; no
`break` means no run of `n` free frames ends before `i + fuel`. -/
theorem scan_loop_first_fit (stat : Nat → mem_stat_t) (n : Nat) :
    ∀ (fuel i c : Nat), c ≤ i → c < n → free_run stat (i - c) c →
      (c < i → (stat (i - c - 1)).proc ≠ 0) →
      (∀ s, s + n ≤ i → ¬ free_run stat s n) →
      (scan_loop stat n fuel i c = none → ∀ s, s + n ≤ i + fuel → ¬ free_run stat s n) ∧
      (∀ j c1, scan_loop stat n fuel i c = some (j, c1) →
        c1 = n ∧ j < i + fuel ∧ n ≤ j + 1 ∧ free_run stat (j + 1 - n) n ∧
          ∀ s, s + n ≤ j → ¬ free_run stat s n) := by
  intro fuel
  induction fuel with
  | zero =>
    intro i c _ _ _ _ hno
    refine ⟨fun _ => hno, ?_⟩
    intro j c1 h
    simp [scan_loop] at h
  | succ fuel ih =>
    intro i c hci hcn hrun hstop hno
    by_cases hp : (stat i).proc = 0
    · by_cases hn : c + 1 = n
      · have hval : scan_loop stat n (fuel + 1) i c = some (i, c + 1) := by
          simp [scan_loop, hp, hn]
        refine ⟨(fun h => by rw [hval] at h; cases h), ?_⟩
        intro j c1 h
        rw [hval] at h
        simp only [Option.some.injEq, Prod.mk.injEq] at h
        obtain ⟨h1, h2⟩ := h
        subst h1; subst h2
        refine ⟨hn, by omega, by omega, ?_, hno⟩
        intro f hf1 hf2
        by_cases hfi : f = i
        · rw [hfi]; exact hp
        · exact hrun f (by omega) (by omega)
      · have hval : scan_loop stat n (fuel + 1) i c = scan_loop stat n fuel (i + 1) (c + 1) := by
          simp [scan_loop, hp, hn]
        have hrun1 : free_run stat (i + 1 - (c + 1)) (c + 1) := by
          intro f hf1 hf2
          by_cases hfi : f = i
          · rw [hfi]; exact hp
          · exact hrun f (by omega) (by omega)
        have hstop1 : c + 1 < i + 1 → (stat (i + 1 - (c + 1) - 1)).proc ≠ 0 := by
          intro hlt
          have := hstop (by omega)
          rwa [show i + 1 - (c + 1) - 1 = i - c - 1 by omega]
        have hno1 : ∀ s, s + n ≤ i + 1 → ¬ free_run stat s n := by
          intro s hs hfr
          by_cases hle : s + n ≤ i
          · exact hno s hle hfr
          · have hlt : c < i := by omega
            exact hstop hlt (hfr (i - c - 1) (by omega) (by omega))
        obtain ⟨ih1, ih2⟩ := ih (i + 1) (c + 1) (by omega) (by omega) hrun1 hstop1 hno1
        rw [hval]
        refine ⟨fun h s hs => ih1 h s (by omega), ?_⟩
        intro j c1 h
        obtain ⟨a1, a2, a3, a4, a5⟩ := ih2 j c1 h
        exact ⟨a1, by omega, a3, a4, a5⟩
    · have hval : scan_loop stat n (fuel + 1) i c = scan_loop stat n fuel (i + 1) 0 := by
        simp [scan_loop, hp]
      have hrun1 : free_run stat (i + 1 - 0) 0 := by
        intro f hf1 hf2; omega
      have hstop1 : 0 < i + 1 → (stat (i + 1 - 0 - 1)).proc ≠ 0 := by
        intro _
        rwa [show i + 1 - 0 - 1 = i by omega]
      have hno1 : ∀ s, s + n ≤ i + 1 → ¬ free_run stat s n := by
        intro s hs hfr
        by_cases hle : s + n ≤ i
        · exact hno s hle hfr
        · exact hp (hfr i (by omega) (by omega))
      obtain ⟨ih1, ih2⟩ := ih (i + 1) 0 (by omega) (by omega) hrun1 hstop1 hno1
      rw [hval]
      refine ⟨fun h s hs => ih1 h s (by omega), ?_⟩
      intro j c1 h
      obtain ⟨a1, a2, a3, a4, a5⟩ := ih2 j c1 h
      exact ⟨a1, by omega, a3, a4, a5⟩

/-- A scan for `n ≥ 1` frames fails exactly when the table has no `n`
consecutive free frames. -/
theorem scan_eq_none_iff (cfg : Config) (stat : Nat → mem_stat_t) (n : Nat) (hn : 1 ≤ n) :
    scan cfg stat n = none ↔ ∀ s, s + n ≤ cfg.NUM_PAGES → ¬ free_run stat s n := by
  obtain ⟨h1, h2⟩ := scan_loop_first_fit stat n cfg.NUM_PAGES 0 0 (le_refl _) (by omega)
    (fun f hf1 hf2 => by omega) (fun h => absurd h (lt_irrefl _))
    (fun s hs _ => by omega)
  constructor
  · intro h s hs
    exact h1 h s (by omega)
  · intro h
    cases hsc : scan cfg stat n with
    | none => rfl
    | some jc =>
      obtain ⟨j, c1⟩ := jc
      obtain ⟨_, a2, a3, a4, _⟩ := h2 j c1 hsc
      exact absurd a4 (h (j + 1 - n) (by omega))

/-- A successful scan stops at the end of the lowest run of `n` free frames. -/
theorem scan_eq_some (cfg : Config) (stat : Nat → mem_stat_t) (n j c1 : Nat) (hn : 1 ≤ n)
    (h : scan cfg stat n = some (j, c1)) :
    c1 = n ∧ j < cfg.NUM_PAGES ∧ n ≤ j + 1 ∧ free_run stat (j + 1 - n) n ∧
      ∀ s, s < j + 1 - n → ¬ free_run stat s n := by
  obtain ⟨_, h2⟩ := scan_loop_first_fit stat n cfg.NUM_PAGES 0 0 (le_refl _) (by omega)
    (fun f hf1 hf2 => by omega) (fun h => absurd h (lt_irrefl _))
    (fun s hs _ => by omega)
  obtain ⟨a1, a2, a3, a4, a5⟩ := h2 j c1 h
  exact ⟨a1, by omega, a3, a4, fun s hs => a5 s (by omega)⟩

/-- A scan for 0 frames never succeeds. -/
theorem scan_zero (cfg : Config) (stat : Nat → mem_stat_t) : scan cfg stat 0 = none := by
  cases h : scan cfg stat 0 with
  | none => rfl
  | some jc =>
    obtain ⟨j, c1⟩ := jc
    have h0 := scan_loop_count_le stat 0 cfg.NUM_PAGES 0 0 j c1 (le_refl _) h
    exfalso
    have key : ∀ (fuel i c : Nat), scan_loop stat 0 fuel i c ≠ some (j, c1) := by
      intro fuel
      induction fuel with
      | zero => intro i c hh; simp [scan_loop] at hh
      | succ fuel ih =>
        intro i c hh
        unfold scan_loop at hh
        split at hh
        · rw [if_neg (by omega)] at hh
          exact ih _ _ hh
        · exact ih _ _ hh
    exact key _ _ _ h

theorem scan_owned_below (cfg : Config) (stat : Nat → mem_stat_t) (n m i count : Nat)
    (hm : owned_below stat m) (h : scan cfg stat n = some (i, count)) :
    count = n ∧ i + 1 = m + n ∧ i < cfg.NUM_PAGES ∧ 1 ≤ n := by
  have := scan_loop_owned_below stat n m hm cfg.NUM_PAGES 0 0 i count (by omega) (by omega) h
  omega

theorem get_trans_table_mem {α : Type} (key : α → Nat) (index : Nat) (l : List α)
    (k : Nat) (e : α) (h : get_trans_table key index l = some (k, e)) : e ∈ l :=
  List.mem_of_find?_eq_some (get_trans_table_some_find key index l k e h)

theorem add_entries_entries (cfg : Config) (i : Nat) (seg : List seg_entry_t)
    (status : alloc_status) (seg1 : List seg_entry_t)
    (h : add_entries cfg i seg = (status, seg1)) :
    ∀ e1 ∈ seg1, ∀ x ∈ e1.page_table, (∃ e0 ∈ seg, x ∈ e0.page_table) ∨ x.p_index = i := by
  intro e1 he1 x hx
  unfold add_entries at h
  simp only at h
  split at h
  · split at h
    · cases h; exact Or.inl ⟨e1, he1, hx⟩
    · split at h
      · cases h
        rcases List.mem_append.1 he1 with hm | hm
        · exact Or.inl ⟨e1, hm, hx⟩
        · simp only [List.mem_singleton] at hm
          subst hm
          simp at hx
      · cases h
        rcases List.mem_append.1 he1 with hm | hm
        · exact Or.inl ⟨e1, hm, hx⟩
        · simp only [List.mem_singleton] at hm
          subst hm
          simp only [List.mem_singleton] at hx
          subst hx
          exact Or.inr rfl
  · rename_i k first_lv_table hg
    have hmem := get_trans_table_mem _ _ _ _ _ hg
    split at h
    · cases h; exact Or.inl ⟨e1, he1, hx⟩
    · split at h
      · cases h; exact Or.inl ⟨e1, he1, hx⟩
      · cases h
        rcases List.mem_or_eq_of_mem_set he1 with hm | hm
        · exact Or.inl ⟨e1, hm, hx⟩
        · subst hm
          simp only [List.mem_append, List.mem_singleton] at hx
          rcases hx with hx | hx
          · exact Or.inl ⟨first_lv_table, hmem, hx⟩
          · subst hx; exact Or.inr rfl

theorem mark_loop_spec (cfg : Config) (pid s e : Nat) :
    ∀ (fuel i : Nat) (stat : Nat → mem_stat_t) (seg : List seg_entry_t)
      (status : alloc_status) (stat1 : Nat → mem_stat_t) (seg1 : List seg_entry_t),
      mark_loop cfg pid s e fuel i stat seg = some (status, stat1, seg1) →
      ∃ w, i ≤ w ∧ w ≤ i + fuel ∧ (status = alloc_status.ok → w = i + fuel) ∧
        (0 < fuel → i < w) ∧
        (∀ f, i ≤ f → f < w → f < cfg.NUM_PAGES ∧
          stat1 f = ⟨pid, (f : Int) - (s : Int), if f = e then -1 else (f : Int) + 1⟩) ∧
        (∀ f, f < i ∨ w ≤ f → stat1 f = stat f) ∧
        (∀ e1 ∈ seg1, ∀ x ∈ e1.page_table,
          (∃ e0 ∈ seg, x ∈ e0.page_table) ∨ (i ≤ x.p_index ∧ x.p_index < w)) := by
  intro fuel
  induction fuel with
  | zero =>
    intro i stat seg status stat1 seg1 h
    simp only [mark_loop, Option.some.injEq, Prod.mk.injEq] at h
    obtain ⟨_, h2, h3⟩ := h
    subst h2; subst h3
    refine ⟨i, le_refl _, le_refl _, fun _ => rfl, fun h => absurd h (lt_irrefl _), ?_, ?_, ?_⟩
    · intro f h1 h2; omega
    · intro f _; rfl
    · intro e1 he1 x hx; exact Or.inl ⟨e1, he1, hx⟩
  | succ fuel ih =>
    intro i stat seg status stat1 seg1 h
    unfold mark_loop at h
    by_cases hi : i < cfg.NUM_PAGES
    · rw [if_pos hi] at h
      simp only at h
      cases ha : add_entries cfg i seg with
      | mk st segA =>
        have hent := add_entries_entries cfg i seg st segA ha
        rw [ha] at h
        cases st with
        | ok =>
          simp only at h
          obtain ⟨w, hw1, hw2, hw3, _, hw5, hw6, hw7⟩ := ih _ _ _ _ _ _ h
          refine ⟨w, by omega, by omega, (fun hs => by have := hw3 hs; omega), (fun _ => by omega),
            ?_, ?_, ?_⟩
          · intro f h1 h2
            by_cases hf : f = i
            · subst hf
              refine ⟨hi, ?_⟩
              rw [hw6 f (Or.inl (Nat.lt_succ_self f))]
              simp [Function.update_same]
            · exact hw5 f (by omega) h2
          · intro f hf
            have hne : f ≠ i := by omega
            rw [hw6 f (by omega), Function.update_noteq hne]
          · intro e1 he1 x hx
            rcases hw7 e1 he1 x hx with ⟨e0, he0, hx0⟩ | ⟨h1, h2⟩
            · rcases hent e0 he0 x hx0 with h0 | h0
              · exact Or.inl h0
              · exact Or.inr ⟨by omega, by omega⟩
            · exact Or.inr ⟨by omega, h2⟩
        | out_of_memory | seg_full | page_full =>
          simp only [Option.some.injEq, Prod.mk.injEq] at h
          obtain ⟨h1, h2, h3⟩ := h
          subst h1; subst h2; subst h3
          refine ⟨i + 1, by omega, by omega, (fun hs => by cases hs), (fun _ => by omega),
            ?_, ?_, ?_⟩
          · intro f h1 h2
            have hf : f = i := by omega
            subst hf
            exact ⟨hi, by simp [Function.update_same]⟩
          · intro f hf
            have hne : f ≠ i := by omega
            rw [Function.update_noteq hne]
          · intro e1 he1 x hx
            rcases hent e1 he1 x hx with h0 | h0
            · exact Or.inl h0
            · exact Or.inr ⟨by omega, by omega⟩
    · rw [if_neg hi] at h
      cases h

theorem alloc_mem_owned_below (cfg : Config) (size : Nat) (st : Store) (proc : pcb_t)
    (r : alloc_result) (m : Nat) (hm : owned_below st.mem_stat m)
    (h : alloc_mem cfg size st proc = some r) :
    r.store.ram = st.ram ∧ r.proc.pid = proc.pid ∧
    ∃ w, m ≤ w ∧
      (∀ f, m ≤ f → f < w → f < cfg.NUM_PAGES ∧ (r.store.mem_stat f).proc = proc.pid) ∧
      (∀ f, f < m ∨ w ≤ f → r.store.mem_stat f = st.mem_stat f) ∧
      (∀ e1 ∈ r.proc.seg_table, ∀ x ∈ e1.page_table,
        (∃ e0 ∈ proc.seg_table, x ∈ e0.page_table) ∨ (m ≤ x.p_index ∧ x.p_index < w)) ∧
      (∀ f ∈ assigned_frames cfg size st.mem_stat, m ≤ f) ∧
      (r.status = alloc_status.ok →
        ∀ f, f ∈ assigned_frames cfg size st.mem_stat ↔ m ≤ f ∧ f < w) := by
  unfold alloc_mem at h
  simp only at h
  cases hs : scan cfg st.mem_stat (num_pages_of cfg size) with
  | none =>
    rw [hs] at h
    simp only [Option.some.injEq] at h
    subst h
    refine ⟨rfl, rfl, m, le_refl _, ?_, ?_, ?_, ?_, ?_⟩
    · intro f h1 h2; omega
    · intro f _; rfl
    · intro e1 he1 x hx; exact Or.inl ⟨e1, he1, hx⟩
    · intro f hf; simp [assigned_frames, hs] at hf
    · intro hok; cases hok
  | some ic =>
    obtain ⟨i, count⟩ := ic
    obtain ⟨hc, hi, _, hn⟩ := scan_owned_below cfg st.mem_stat _ m i count hm hs
    have hstart : i + 1 - count = m := by omega
    have hfr : ∀ f, f ∈ assigned_frames cfg size st.mem_stat ↔
        m ≤ f ∧ f < m + (i + 1 + 1 - m) := by
      intro f
      simp only [assigned_frames, hs, hstart, List.mem_range'_1]
    rw [hs] at h
    simp only [hstart] at h
    cases hl : mark_loop cfg proc.pid m (i + 1) (i + 1 + 1 - m) m st.mem_stat proc.seg_table with
    | none => rw [hl] at h; cases h
    | some res =>
      obtain ⟨status, stat1, seg1⟩ := res
      obtain ⟨w, hw1, hw2, hw3, _, hw5, hw6, hw7⟩ := mark_loop_spec cfg _ _ _ _ _ _ _ _ _ _ hl
      rw [hl] at h
      have key : r.store.ram = st.ram ∧ r.proc.pid = proc.pid ∧ r.store.mem_stat = stat1 ∧
          r.proc.seg_table = seg1 ∧ r.status = status := by
        cases status <;> simp only [Option.some.injEq] at h <;> subst h <;>
          exact ⟨rfl, rfl, rfl, rfl, rfl⟩
      obtain ⟨k1, k2, k3, k4, k5⟩ := key
      refine ⟨k1, k2, w, hw1, ?_, ?_, ?_, ?_, ?_⟩
      · intro f h1 h2
        obtain ⟨hb, hv⟩ := hw5 f h1 h2
        refine ⟨hb, ?_⟩
        rw [k3, hv]
      · intro f hf
        rw [k3]
        exact hw6 f hf
      · rw [k4]; exact hw7
      · intro f hf; exact ((hfr f).1 hf).1
      · intro hok f
        rw [k5] at hok
        rw [hfr f, hw3 hok]

/-! ## Runs of allocation calls -/

theorem map_pid_set (l : List pcb_t) (k : Nat) (p q : pcb_t) (hk : l[k]? = some p)
    (hq : q.pid = p.pid) : (l.set k q).map pcb_t.pid = l.map pcb_t.pid := by
  apply List.ext_getElem?
  intro n
  by_cases hn : k = n
  · subst hn
    have hlt : k < l.length := by
      by_contra hge
      rw [List.getElem?_eq_none (by omega)] at hk
      cases hk
    rw [List.getElem?_map, List.getElem?_map, List.getElem?_set, if_pos rfl, if_pos hlt, hk]
    simp [hq]
  · simp [List.getElem?_map, List.getElem?_set_ne hn]

theorem owned_below_init : owned_below init_mem.mem_stat 0 := by
  intro f
  simp [init_mem]

/-- One call of `alloc_mem` on a system whose owned frames are those below `m`
and whose pids are non-zero. -/
theorem sys_alloc_step (cfg : Config) (size k : Nat) (s s1 : Sys) (r : alloc_result) (m : Nat)
    (hm : owned_below s.store.mem_stat m) (hpid : ∀ p ∈ s.procs, p.pid ≠ 0)
    (h : sys_alloc cfg size k s = some (r, s1)) :
    ∃ m1, m ≤ m1 ∧ owned_below s1.store.mem_stat m1 ∧
      (∀ p ∈ s1.procs, p.pid ≠ 0) ∧
      s1.procs.map pcb_t.pid = s.procs.map pcb_t.pid ∧
      s1.store.ram = s.store.ram ∧
      (∀ f, f < m ∨ m1 ≤ f → s1.store.mem_stat f = s.store.mem_stat f) ∧
      (∀ f ∈ assigned_frames cfg size s.store.mem_stat, m ≤ f) ∧
      (r.status = alloc_status.ok →
        ∀ f, f ∈ assigned_frames cfg size s.store.mem_stat ↔ m ≤ f ∧ f < m1) ∧
      (tables_own_frames cfg s → tables_own_frames cfg s1) := by
  unfold sys_alloc at h
  cases hp : s.procs[k]? with
  | none => rw [hp] at h; cases h
  | some p =>
    rw [hp] at h
    simp only at h
    cases ha : alloc_mem cfg size s.store p with
    | none => rw [ha] at h; cases h
    | some r0 =>
      rw [ha] at h
      simp only [Option.some.injEq, Prod.mk.injEq] at h
      obtain ⟨hr, hs1⟩ := h
      subst hr; subst hs1
      have hpm : p ∈ s.procs := List.getElem?_mem hp
      have hp0 : p.pid ≠ 0 := hpid p hpm
      obtain ⟨hram, hrpid, w, hw1, hw2, hw3, hw4, hw5, hw6⟩ :=
        alloc_mem_owned_below cfg size s.store p r0 m hm ha
      have hob : owned_below r0.store.mem_stat w := by
        intro f
        by_cases h1 : f < m
        · rw [hw3 f (Or.inl h1)]
          constructor
          · intro _; omega
          · intro _; exact (hm f).2 h1
        · by_cases h2 : f < w
          · constructor
            · intro _; exact h2
            · intro _; rw [(hw2 f (by omega) h2).2]; exact hp0
          · rw [hw3 f (Or.inr (by omega))]
            constructor
            · intro hne; exact absurd ((hm f).1 hne) h1
            · intro hlt; exact absurd hlt h2
      refine ⟨w, hw1, hob, ?_, map_pid_set _ _ _ _ hp hrpid, hram,
        hw3, hw5, hw6, ?_⟩
      · intro q hq
        rcases List.mem_or_eq_of_mem_set hq with hq | hq
        · exact hpid q hq
        · rw [hq, hrpid]; exact hp0
      · intro ht q hq e he x hx
        rcases List.mem_or_eq_of_mem_set hq with hq | hq
        · obtain ⟨hb, ho⟩ := ht q hq e he x hx
          refine ⟨hb, ?_⟩
          have hlt : x.p_index < m := (hm _).1 (by rw [ho]; exact hpid q hq)
          show (r0.store.mem_stat x.p_index).proc = q.pid
          rw [hw3 _ (Or.inl hlt)]
          exact ho
        · subst hq
          show x.p_index < cfg.NUM_PAGES ∧ (r0.store.mem_stat x.p_index).proc = r0.proc.pid
          rw [hrpid]
          rcases hw4 e he x hx with ⟨e0, he0, hx0⟩ | ⟨h1, h2⟩
          · obtain ⟨hb, ho⟩ := ht p hpm e0 he0 x hx0
            refine ⟨hb, ?_⟩
            have hlt : x.p_index < m := (hm _).1 (by rw [ho]; exact hp0)
            rw [hw3 _ (Or.inl hlt)]
            exact ho
          · exact hw2 _ h1 h2

/-- What a run of `alloc_mem` calls preserves, from any system whose owned
frames are those below `m` and whose pids are non-zero. -/
theorem run_calls_inv (cfg : Config) :
    ∀ (calls : List (Nat × Nat)) (s : Sys) (hist : List (List Nat)) (s1 : Sys)
      (hist1 : List (List Nat)) (m : Nat),
      owned_below s.store.mem_stat m → (∀ p ∈ s.procs, p.pid ≠ 0) →
      run_calls cfg calls s hist = some (s1, hist1) →
      ∃ m1, m ≤ m1 ∧ owned_below s1.store.mem_stat m1 ∧
        (∀ p ∈ s1.procs, p.pid ≠ 0) ∧
        s1.procs.map pcb_t.pid = s.procs.map pcb_t.pid ∧
        ((∀ F ∈ hist, ∀ f ∈ F, f < m) → hist.Pairwise List.Disjoint →
          (∀ F ∈ hist1, ∀ f ∈ F, f < m1) ∧ hist1.Pairwise List.Disjoint) ∧
        (tables_own_frames cfg s → tables_own_frames cfg s1) := by
  intro calls
  induction calls with
  | nil =>
    intro s hist s1 hist1 m hm hpid h
    simp only [run_calls, Option.some.injEq, Prod.mk.injEq] at h
    obtain ⟨h1, h2⟩ := h
    subst h1; subst h2
    exact ⟨m, le_refl _, hm, hpid, rfl, fun a b => ⟨a, b⟩, fun a => a⟩
  | cons c rest ih =>
    intro s hist s1 hist1 m hm hpid h
    obtain ⟨size, k⟩ := c
    unfold run_calls at h
    cases hc : sys_alloc cfg size k s with
    | none => rw [hc] at h; cases h
    | some rs =>
      obtain ⟨r, s2⟩ := rs
      rw [hc] at h
      simp only at h
      obtain ⟨m2, hm2, hob2, hpid2, hmap2, _, _, hfree, hnew, htab2⟩ :=
        sys_alloc_step cfg size k s s2 r m hm hpid hc
      obtain ⟨m1, hm1, hob1, hpid1, hmap1, hh1, htab1⟩ := ih s2 _ s1 hist1 m2 hob2 hpid2 h
      refine ⟨m1, by omega, hob1, hpid1, by rw [hmap1, hmap2], ?_, fun ht => htab1 (htab2 ht)⟩
      intro hlt hpw
      apply hh1
      · intro F hF f hf
        by_cases hok : r.status = alloc_status.ok
        · rw [if_pos hok] at hF
          rcases List.mem_cons.1 hF with hF | hF
          · subst hF; exact ((hnew hok f).1 hf).2
          · have := hlt F hF f hf; omega
        · rw [if_neg hok] at hF
          have := hlt F hF f hf; omega
      · by_cases hok : r.status = alloc_status.ok
        · rw [if_pos hok]
          refine List.pairwise_cons.2 ⟨?_, hpw⟩
          intro F hF f hf1 hf2
          have := hfree f hf1
          have := hlt F hF f hf2
          omega
        · rw [if_neg hok]; exact hpw

/-- Runs whose calls all keep their marking loop inside the frame table
(`Reachable`): when the processes have distinct non-zero pids and start with
empty segment tables, each frame number stored in a second-level entry of a
process is a frame whose recorded owner is the pid of that process, and no
frame number occurs in the tables of two different processes. -/
theorem tables_reference_own_frames (cfg : Config) (procs0 : List pcb_t) (s : Sys)
    (hempty : ∀ p ∈ procs0, p.seg_table = [])
    (hpid : ∀ p ∈ procs0, p.pid ≠ 0)
    (hdist : (procs0.map pcb_t.pid).Nodup)
    (hr : Reachable cfg procs0 s) :
    (∀ p ∈ s.procs, ∀ e ∈ p.seg_table, ∀ x ∈ e.page_table,
      x.p_index < cfg.NUM_PAGES ∧ (s.store.mem_stat x.p_index).proc = p.pid) ∧
    (∀ (j k : Nat) (p q : pcb_t), j ≠ k → s.procs[j]? = some p → s.procs[k]? = some q →
      ∀ e ∈ p.seg_table, ∀ x ∈ e.page_table, ∀ e2 ∈ q.seg_table, ∀ y ∈ e2.page_table,
        x.p_index ≠ y.p_index) := by
  obtain ⟨calls, hist, hrun⟩ := hr
  obtain ⟨m1, _, _, _, hmap, _, htab⟩ :=
    run_calls_inv cfg calls (init_sys procs0) [] s hist 0 owned_below_init hpid hrun
  have h0 : tables_own_frames cfg (init_sys procs0) := by
    intro p hp e he
    rw [show (init_sys procs0).procs = procs0 from rfl] at hp
    rw [hempty p hp] at he
    cases he
  have ht := htab h0
  refine ⟨ht, ?_⟩
  intro j k p q hjk hj hk e he x hx e2 he2 y hy hxy
  have h1 := (ht p (List.getElem?_mem hj) e he x hx).2
  have h2 := (ht q (List.getElem?_mem hk) e2 he2 y hy).2
  have hpq : p.pid = q.pid := by rw [← h1, ← h2, hxy]
  have hnd : (s.procs.map pcb_t.pid).Nodup := by rw [hmap]; exact hdist
  have hj1 : (s.procs.map pcb_t.pid)[j]? = some p.pid := by simp [List.getElem?_map, hj]
  have hk1 : (s.procs.map pcb_t.pid)[k]? = some q.pid := by simp [List.getElem?_map, hk]
  have hjlt : j < (s.procs.map pcb_t.pid).length := by
    by_contra hge
    rw [List.getElem?_eq_none (by omega)] at hj1
    cases hj1
  have hklt : k < (s.procs.map pcb_t.pid).length := by
    by_contra hge
    rw [List.getElem?_eq_none (by omega)] at hk1
    cases hk1
  rcases Nat.lt_or_gt_of_ne hjk with hlt | hlt
  · exact List.nodup_iff_getElem?_ne_getElem?.1 hnd j k hlt hklt (by rw [hj1, hk1, hpq])
  · exact List.nodup_iff_getElem?_ne_getElem?.1 hnd k j hlt hjlt (by rw [hj1, hk1, hpq])

theorem tables_reference_own_frames_witness :
    ((∀ p ∈ procs12, p.seg_table = []) ∧ (∀ p ∈ procs12, p.pid ≠ 0) ∧
      (procs12.map pcb_t.pid).Nodup ∧ Reachable cfg4 procs12 (sys_after cfg4 calls66 procs12)) ∧
    ((∀ p ∈ (sys_after cfg4 calls66 procs12).procs, ∀ e ∈ p.seg_table, ∀ x ∈ e.page_table,
      x.p_index < cfg4.NUM_PAGES ∧
        ((sys_after cfg4 calls66 procs12).store.mem_stat x.p_index).proc = p.pid) ∧
    (∀ (j k : Nat) (p q : pcb_t), j ≠ k → (sys_after cfg4 calls66 procs12).procs[j]? = some p →
      (sys_after cfg4 calls66 procs12).procs[k]? = some q →
      ∀ e ∈ p.seg_table, ∀ x ∈ e.page_table, ∀ e2 ∈ q.seg_table, ∀ y ∈ e2.page_table,
        x.p_index ≠ y.p_index)) :=
  ⟨⟨by decide, by decide, by decide, ⟨calls66, hist_after cfg4 calls66 procs12, rfl⟩⟩,
    tables_reference_own_frames cfg4 procs12 (sys_after cfg4 calls66 procs12)
      (by decide) (by decide) (by decide) ⟨calls66, hist_after cfg4 calls66 procs12, rfl⟩⟩

/-! ## The allocator at the inputs where it departs from the specification -/

/-- The page count of line 97 is never the rounded-up quotient: it is one less
when `size` is not a multiple of `PAGE_SIZE`, and one more when it is. -/
theorem num_pages_of_vs_ceil (cfg : Config) (size : Nat) (hps : 0 < cfg.PAGE_SIZE)
    (hw : size / cfg.PAGE_SIZE + 1 < WORD) :
    (size % cfg.PAGE_SIZE ≠ 0 → num_pages_of cfg size + 1 = ceil_pages cfg size) ∧
    (size % cfg.PAGE_SIZE = 0 → num_pages_of cfg size = ceil_pages cfg size + 1) := by
  have hdm : cfg.PAGE_SIZE * (size / cfg.PAGE_SIZE) + size % cfg.PAGE_SIZE = size :=
    Nat.div_add_mod size cfg.PAGE_SIZE
  have hmod : size % cfg.PAGE_SIZE < cfg.PAGE_SIZE := Nat.mod_lt _ hps
  have hcomm : cfg.PAGE_SIZE * (size / cfg.PAGE_SIZE) = size / cfg.PAGE_SIZE * cfg.PAGE_SIZE :=
    Nat.mul_comm _ _
  constructor
  · intro hne
    have hceil : (size + cfg.PAGE_SIZE - 1) / cfg.PAGE_SIZE = size / cfg.PAGE_SIZE + 1 := by
      apply Nat.div_eq_of_lt_le
      · rw [Nat.add_mul, Nat.one_mul]; omega
      · rw [Nat.add_mul, Nat.add_mul, Nat.one_mul]; omega
    simp only [num_pages_of, ceil_pages, hne, ne_eq, not_false_eq_true, if_true, hceil]
  · intro heq
    have hceil : (size + cfg.PAGE_SIZE - 1) / cfg.PAGE_SIZE = size / cfg.PAGE_SIZE := by
      apply Nat.div_eq_of_lt_le
      · omega
      · rw [Nat.add_mul, Nat.one_mul]; omega
    simp only [num_pages_of, ceil_pages, heq, ne_eq, not_true_eq_false, if_false, hceil,
      Nat.mod_eq_of_lt hw]

/-- A successful call returns the old break pointer and advances it by
`num_pages * PAGE_SIZE` (lines 130-131), in `addr_t` arithmetic. -/
theorem alloc_mem_ok_bp (cfg : Config) (size : Nat) (st : Store) (proc : pcb_t)
    (r : alloc_result) (h : alloc_mem cfg size st proc = some r)
    (hok : r.status = alloc_status.ok) :
    r.ret = proc.bp ∧
      r.proc.bp = (proc.bp + num_pages_of cfg size * cfg.PAGE_SIZE) % WORD := by
  unfold alloc_mem at h
  simp only at h
  cases hs : scan cfg st.mem_stat (num_pages_of cfg size) with
  | none =>
    rw [hs] at h
    simp only [Option.some.injEq] at h
    subst h
    cases hok
  | some ic =>
    obtain ⟨i, count⟩ := ic
    rw [hs] at h
    simp only at h
    cases hl : mark_loop cfg proc.pid (i + 1 - count) (i + 1) (i + 1 + 1 - (i + 1 - count))
        (i + 1 - count) st.mem_stat proc.seg_table with
    | none => rw [hl] at h; cases h
    | some res =>
      obtain ⟨status, stat1, seg1⟩ := res
      rw [hl] at h
      cases status <;> simp only [Option.some.injEq] at h <;> subst h
      · exact ⟨rfl, rfl⟩
      all_goals cases hok

/-- C2, the code at a failing input. On the four-frame store process 1 and then
process 2 (both fresh) request 6 bytes. The second call succeeds, returns base
address 0 and marks frames 2 and 3, yet none of the addresses 0..7 translates
for process 2: its tables map pages 2 and 3, the numbers of the frames. -/
theorem alloc_mem_base_range_unmapped :
    ((alloc_mem cfg4 6 init_mem (fresh_proc 1)).bind
        (fun r1 => alloc_mem cfg4 6 r1.store (fresh_proc 2))).map
      (fun r => (r.ret, r.status, owners r.store.mem_stat 4)) =
    some (0, alloc_status.ok, [1, 1, 2, 2]) ∧
    ((alloc_mem cfg4 6 init_mem (fresh_proc 1)).bind
        (fun r1 => alloc_mem cfg4 6 r1.store (fresh_proc 2))).map
      (fun r => (List.range 9).map (fun a => translate cfg4 a r.proc)) =
    some [none, none, none, none, none, none, none, none, some 8] ∧
    ceil_pages cfg4 6 = 2 := by
  decide

/-- C3, the code at a failing input. A request of 4 bytes (one frame of 4
bytes) on the fresh four-frame store: the scan searches for a run of 2 frames
and the call sets the owner of 3 frames. -/
theorem alloc_mem_marks_three_frames :
    ceil_pages cfg4 4 = 1 ∧ num_pages_of cfg4 4 = 2 ∧
    (alloc_mem cfg4 4 init_mem (fresh_proc 1)).map
      (fun r => (r.status, owners r.store.mem_stat 4)) =
    some (alloc_status.ok, [1, 1, 1, 0]) := by
  decide

/-- C4, the code at a failing input. A successful request of 4 bytes by a
process with break pointer 0 returns 0 and leaves the break pointer at 8, not
at `0 + ceil(4 / 4) * 4 = 4`; a successful request of 6 bytes leaves it at 4,
not at 8. -/
theorem alloc_mem_bp_growth :
    ceil_pages cfg4 4 * cfg4.PAGE_SIZE = 4 ∧ ceil_pages cfg4 6 * cfg4.PAGE_SIZE = 8 ∧
    (alloc_mem cfg4 4 init_mem (fresh_proc 1)).map (fun r => (r.status, r.ret, r.proc.bp)) =
      some (alloc_status.ok, 0, 8) ∧
    (alloc_mem cfg4 6 init_mem (fresh_proc 1)).map (fun r => (r.status, r.ret, r.proc.bp)) =
      some (alloc_status.ok, 0, 4) := by
  decide

/-- C7, the code at a failing input. A successful request of 4 bytes
(`ceil(4 / 4) = 1` frame) on the fresh four-frame store: frame 0 gets
`next = 1`, not -1; the chain written is 0, 1, 2. -/
theorem alloc_mem_chain_too_long :
    ceil_pages cfg4 4 = 1 ∧
    (alloc_mem cfg4 4 init_mem (fresh_proc 1)).map
      (fun r => (r.status,
        (List.range 4).map (fun i => ((r.store.mem_stat i).index, (r.store.mem_stat i).next)))) =
    some (alloc_status.ok, [(0, 1), (1, 2), (2, -1), (0, 0)]) := by
  decide

/-- C8, the code at a failing input. On the fresh four-frame store all
`ceil(16 / 4) = 4` frames are free, yet a request of `NUM_PAGES * PAGE_SIZE = 16`
bytes finds no run (it searches for 5 frames) and fails, leaving every frame
free. -/
theorem alloc_mem_whole_memory_fails :
    ceil_pages cfg4 (cfg4.NUM_PAGES * cfg4.PAGE_SIZE) = 4 ∧
    owners init_mem.mem_stat 4 = [0, 0, 0, 0] ∧
    num_pages_of cfg4 16 = 5 ∧
    scan cfg4 init_mem.mem_stat (num_pages_of cfg4 16) = none ∧
    (alloc_mem cfg4 16 init_mem (fresh_proc 1)).map
      (fun r => (r.ret, r.status, owners r.store.mem_stat 4, r.proc.bp)) =
    some (0, alloc_status.out_of_memory, [0, 0, 0, 0], 0) := by
  decide

/-! ## Deallocation and the effect of a write -/

/-- C13. For every store, address and process, `free_mem` returns the constant
0 and leaves the store (every frame's owner, index and next, and the byte
arena) and the process descriptor (break pointer and all tables) as they
were. -/
theorem free_mem_no_effect (st : Store) (address : Nat) (proc : pcb_t) :
    free_mem st address proc = (0, st, proc) ∧
    ∀ (st2 : Store) (address2 : Nat) (proc2 : pcb_t),
      (free_mem st2 address2 proc2).1 = (free_mem st address proc).1 :=
  ⟨rfl, fun _ _ _ => rfl⟩

/-- C12. Effect of `write_mem` of a byte `b` at address `a`. It returns 1 with
the store unchanged exactly when translation of `a` misses. Whenever it
returns, it has either returned 1 with the store unchanged, or returned 0 with
a store whose arena holds `b` at the translated address, equals the old arena
at every other index, and whose frame-status table is the old one. It returns
whenever the translated address lies inside `_ram`. The result consists of a
return code and a store: no process descriptor is produced. -/
theorem write_mem_effect (cfg : Config) (st : Store) (a : Nat) (proc : pcb_t) (b : Nat)
    (hb : b < 256) :
    (write_mem cfg st a proc b = some (1, st) ↔ translate cfg a proc = none) ∧
    (∀ (ret : Nat) (st1 : Store), write_mem cfg st a proc b = some (ret, st1) →
      (ret = 1 ∧ st1 = st ∧ translate cfg a proc = none) ∨
      (ret = 0 ∧ ∃ pa, translate cfg a proc = some pa ∧ pa < cfg.RAM_SIZE ∧
        st1.ram pa = b ∧ (∀ j, j ≠ pa → st1.ram j = st.ram j) ∧
        st1.mem_stat = st.mem_stat)) ∧
    (∀ pa, translate cfg a proc = some pa → pa < cfg.RAM_SIZE →
      ∃ st1, write_mem cfg st a proc b = some (0, st1)) := by
  unfold write_mem
  cases ht : translate cfg a proc with
  | none =>
    refine ⟨by simp, ?_, ?_⟩
    · intro ret st1 h
      simp only [Option.some.injEq, Prod.mk.injEq] at h
      exact Or.inl ⟨h.1.symm, h.2.symm, rfl⟩
    · intro pa h; cases h
  | some pa0 =>
    by_cases hlt : pa0 < cfg.RAM_SIZE
    · simp only [hlt, if_true]
      refine ⟨by simp, ?_, ?_⟩
      · intro ret st1 h
        simp only [Option.some.injEq, Prod.mk.injEq] at h
        obtain ⟨h1, h2⟩ := h
        subst h2
        refine Or.inr ⟨h1.symm, pa0, rfl, hlt, ?_, ?_, rfl⟩
        · simp [Function.update_same, Nat.mod_eq_of_lt hb]
        · intro j hj
          simp [Function.update_noteq hj]
      · intro pa _ _
        exact ⟨_, rfl⟩
    · simp only [hlt, if_false]
      refine ⟨by simp, ?_, ?_⟩
      · intro ret st1 h; cases h
      · intro pa h hpa
        simp only [Option.some.injEq] at h
        subst h
        exact absurd hpa hlt

theorem write_mem_effect_witness :
    (0xAB : Nat) < 256 ∧
    ((write_mem cfg4 init_mem 0 proc_two_pages 0xAB = some (1, init_mem) ↔
        translate cfg4 0 proc_two_pages = none) ∧
      (∀ (ret : Nat) (st1 : Store),
        write_mem cfg4 init_mem 0 proc_two_pages 0xAB = some (ret, st1) →
        (ret = 1 ∧ st1 = init_mem ∧ translate cfg4 0 proc_two_pages = none) ∨
        (ret = 0 ∧ ∃ pa, translate cfg4 0 proc_two_pages = some pa ∧ pa < cfg4.RAM_SIZE ∧
          st1.ram pa = 0xAB ∧ (∀ j, j ≠ pa → st1.ram j = init_mem.ram j) ∧
          st1.mem_stat = init_mem.mem_stat)) ∧
      (∀ pa, translate cfg4 0 proc_two_pages = some pa → pa < cfg4.RAM_SIZE →
        ∃ st1, write_mem cfg4 init_mem 0 proc_two_pages 0xAB = some (0, st1))) :=
  ⟨by decide, write_mem_effect cfg4 init_mem 0 proc_two_pages 0xAB (by decide)⟩

/-! ## Reads, the frame table bound and the dump at the inputs where the code
departs from the specification -/

/-- C11, the code at a failing input. On the four-frame store two fresh
processes with pids 1 and 2 each request 6 bytes. Process 2 then has break
pointer 4 (8 if the pointer advanced by two frames), and `read_mem` at address
8 for process 2 returns 0 with a byte, although 8 lies beyond the break
pointer; reads at the addresses 0..7 it was given return 1. -/
theorem read_mem_beyond_bp_succeeds :
    Reachable cfg4 procs12 (sys_after cfg4 calls66 procs12) ∧
    (sys_after cfg4 calls66 procs12).procs[1]?.map
      (fun p => (p.pid, p.bp, read_mem cfg4 (sys_after cfg4 calls66 procs12).store 8 p)) =
      some (2, 4, some (0, some 0)) ∧
    (sys_after cfg4 calls66 procs12).procs[1]?.map
      (fun p => (List.range 8).map
        (fun a => read_mem cfg4 (sys_after cfg4 calls66 procs12).store a p)) =
      some (List.replicate 8 (some (1, none))) :=
  ⟨⟨calls66, hist_after cfg4 calls66 procs12, rfl⟩, by decide, by decide⟩

/-- C18, the code at a failing input. On the four-frame store process 1
requests 4 bytes and is given frames 0..2. A request of 6 bytes by process 2
then finds the run made of the last frame, 3, and its marking loop runs over
the indices 3 and 4: it writes `_mem_stat[4]`, outside the table of
`NUM_PAGES = 4` entries. -/
theorem alloc_mem_writes_past_table :
    (sys_alloc cfg4 4 0 (init_sys procs12)).map
      (fun rs => (rs.1.status, owners rs.2.store.mem_stat 4,
        scan cfg4 rs.2.store.mem_stat (num_pages_of cfg4 6),
        assigned_frames cfg4 6 rs.2.store.mem_stat)) =
      some (alloc_status.ok, [1, 1, 1, 0], some (3, 1), [3, 4]) ∧
    ((sys_alloc cfg4 4 0 (init_sys procs12)).bind
      (fun rs => sys_alloc cfg4 6 1 rs.2)).isNone = true := by
  decide

/-- C17, the code at a failing input. On the four-frame store process 1 owns
frames 0 and 1 and has written `0xCD` at address 0 and `0xAB` at address 3,
the last byte of frame 0, whose printed range is 0-3. The dump prints the line
of address 0 and no line for address 3. -/
theorem dump_skips_last_byte :
    owners store_two_bytes.mem_stat 4 = [1, 1, 0, 0] ∧
    store_two_bytes.ram 0 = 0xCD ∧ store_two_bytes.ram 3 = 0xAB ∧
    dump cfg4 store_two_bytes =
      some [dump_line.frame 0 0 3 1 0 1, dump_line.byte 0 0xCD,
        dump_line.frame 1 4 7 1 1 (-1)] := by
  decide

/-! ## Address decomposition -/

theorem offset_mask (n : Nat) :
    (WORD - 1) - ((WORD - 1) <<< n) % WORD = 2 ^ (min n 32) - 1 := by
  by_cases h : n ≤ 32
  · rw [Nat.min_eq_left h]
    unfold WORD
    interval_cases n <;> rfl
  · rw [Nat.min_eq_right (by omega)]
    have hd : (2 : Nat) ^ 32 ∣ (WORD - 1) <<< n := by
      rw [Nat.shiftLeft_eq]
      exact Dvd.dvd.mul_left (Nat.pow_dvd_pow 2 (by omega)) _
    have hz : ((WORD - 1) <<< n) % WORD = 0 := Nat.mod_eq_zero_of_dvd hd
    rw [hz]
    rfl

theorem get_offset_eq (cfg : Config) (a : Nat) (ha : a < WORD) :
    get_offset cfg a = a % 2 ^ cfg.OFFSET_LEN := by
  unfold get_offset
  rw [offset_mask, Nat.and_pow_two_sub_one_eq_mod]
  by_cases h : cfg.OFFSET_LEN ≤ 32
  · rw [Nat.min_eq_left h]
  · rw [Nat.min_eq_right (by omega)]
    have h1 : a < 2 ^ 32 := ha
    have h2 : (2 : Nat) ^ 32 ≤ 2 ^ cfg.OFFSET_LEN := Nat.pow_le_pow_right (by decide) (by omega)
    rw [Nat.mod_eq_of_lt h1, Nat.mod_eq_of_lt (by omega)]

theorem get_first_lv_eq (cfg : Config) (a : Nat) :
    get_first_lv cfg a = a / 2 ^ cfg.OFFSET_LEN / 2 ^ cfg.PAGE_LEN := by
  unfold get_first_lv
  rw [Nat.shiftRight_add, Nat.shiftRight_eq_div_pow, Nat.shiftRight_eq_div_pow]

theorem first_lv_shift_le (cfg : Config) (a : Nat) :
    get_first_lv cfg a <<< cfg.PAGE_LEN ≤ a >>> cfg.OFFSET_LEN := by
  rw [get_first_lv_eq, Nat.shiftLeft_eq, Nat.shiftRight_eq_div_pow]
  exact Nat.div_mul_le_self _ _

theorem get_second_lv_eq (cfg : Config) (a : Nat) (ha : a < WORD) :
    get_second_lv cfg a = a / 2 ^ cfg.OFFSET_LEN % 2 ^ cfg.PAGE_LEN := by
  have hle := first_lv_shift_le cfg a
  have hq : a >>> cfg.OFFSET_LEN < WORD := by
    rw [Nat.shiftRight_eq_div_pow]
    exact lt_of_le_of_lt (Nat.div_le_self _ _) ha
  have hdm := Nat.div_add_mod (a / 2 ^ cfg.OFFSET_LEN) (2 ^ cfg.PAGE_LEN)
  have hsh : get_first_lv cfg a <<< cfg.PAGE_LEN =
      2 ^ cfg.PAGE_LEN * (a / 2 ^ cfg.OFFSET_LEN / 2 ^ cfg.PAGE_LEN) := by
    rw [get_first_lv_eq, Nat.shiftLeft_eq, Nat.mul_comm]
  have hq2 : a >>> cfg.OFFSET_LEN = a / 2 ^ cfg.OFFSET_LEN := Nat.shiftRight_eq_div_pow _ _
  unfold get_second_lv
  rw [hsh] at hle ⊢
  rw [hq2] at hle hq ⊢
  unfold WORD at hq ⊢
  omega



/-- Page number and offset put an address together again. -/
theorem page_offset_compose (n a : Nat) :
    (a / 2 ^ n) <<< n ||| a % 2 ^ n = a := by
  rw [Nat.shiftLeft_eq, Nat.mul_comm, ← Nat.mul_add_lt_is_or (Nat.mod_lt _ (Nat.two_pow_pos n))]
  exact Nat.div_add_mod a (2 ^ n)

/-- C16. Address decomposition is lossless and bounded. For every 32-bit
address `a`: the offset is below `2 ^ OFFSET_LEN`; the second-level index is
below `2 ^ PAGE_LEN` and the subtraction that computes it does not underflow;
the three fields, shifted back and or-ed, give `a` (also with each shift
reduced to an `addr_t`); and the fields are the low `OFFSET_LEN` bits, the next
`PAGE_LEN` bits and the remaining high bits of `a`. -/
theorem address_decomposition (cfg : Config) (a : Nat) (ha : a < WORD) :
    get_offset cfg a < 2 ^ cfg.OFFSET_LEN ∧
    get_second_lv cfg a < 2 ^ cfg.PAGE_LEN ∧
    (get_first_lv cfg a <<< cfg.PAGE_LEN) % WORD ≤ a >>> cfg.OFFSET_LEN ∧
    (get_first_lv cfg a <<< (cfg.OFFSET_LEN + cfg.PAGE_LEN) |||
      get_second_lv cfg a <<< cfg.OFFSET_LEN ||| get_offset cfg a) = a ∧
    ((get_first_lv cfg a <<< (cfg.OFFSET_LEN + cfg.PAGE_LEN)) % WORD |||
      (get_second_lv cfg a <<< cfg.OFFSET_LEN) % WORD ||| get_offset cfg a) = a ∧
    get_offset cfg a = a % 2 ^ cfg.OFFSET_LEN ∧
    get_second_lv cfg a = a / 2 ^ cfg.OFFSET_LEN % 2 ^ cfg.PAGE_LEN ∧
    get_first_lv cfg a = a / 2 ^ (cfg.OFFSET_LEN + cfg.PAGE_LEN) := by
  have ho := get_offset_eq cfg a ha
  have hs := get_second_lv_eq cfg a ha
  have hf : get_first_lv cfg a = a / 2 ^ (cfg.OFFSET_LEN + cfg.PAGE_LEN) :=
    Nat.shiftRight_eq_div_pow _ _
  have hlow : get_second_lv cfg a <<< cfg.OFFSET_LEN ||| get_offset cfg a =
      a % 2 ^ (cfg.OFFSET_LEN + cfg.PAGE_LEN) := by
    rw [ho, hs, Nat.shiftLeft_eq, Nat.mul_comm,
      ← Nat.mul_add_lt_is_or (Nat.mod_lt _ (Nat.two_pow_pos _)), Nat.pow_add, Nat.mod_mul,
      Nat.add_comm]
  have hall : (get_first_lv cfg a <<< (cfg.OFFSET_LEN + cfg.PAGE_LEN) |||
      get_second_lv cfg a <<< cfg.OFFSET_LEN ||| get_offset cfg a) = a := by
    rw [Nat.or_assoc, hlow, hf]
    exact page_offset_compose _ a
  have h1 : get_first_lv cfg a <<< (cfg.OFFSET_LEN + cfg.PAGE_LEN) ≤ a := by
    rw [hf, Nat.shiftLeft_eq]
    exact Nat.div_mul_le_self _ _
  have h2 : get_second_lv cfg a <<< cfg.OFFSET_LEN ≤ a := by
    rw [hs, Nat.shiftLeft_eq]
    calc a / 2 ^ cfg.OFFSET_LEN % 2 ^ cfg.PAGE_LEN * 2 ^ cfg.OFFSET_LEN
        ≤ a / 2 ^ cfg.OFFSET_LEN * 2 ^ cfg.OFFSET_LEN :=
          Nat.mul_le_mul_right _ (Nat.mod_le _ _)
      _ ≤ a := Nat.div_mul_le_self _ _
  have h3 : get_first_lv cfg a <<< cfg.PAGE_LEN ≤ a >>> cfg.OFFSET_LEN := first_lv_shift_le cfg a
  refine ⟨?_, ?_, ?_, hall, ?_, ho, hs, hf⟩
  · rw [ho]; exact Nat.mod_lt _ (Nat.two_pow_pos _)
  · rw [hs]; exact Nat.mod_lt _ (Nat.two_pow_pos _)
  · exact le_trans (Nat.mod_le _ _) h3
  · rw [Nat.mod_eq_of_lt (lt_of_le_of_lt h1 ha), Nat.mod_eq_of_lt (lt_of_le_of_lt h2 ha)]
    exact hall

theorem address_decomposition_witness :
    (13 : Nat) < WORD ∧
    (get_offset cfg4 13 < 2 ^ cfg4.OFFSET_LEN ∧
    get_second_lv cfg4 13 < 2 ^ cfg4.PAGE_LEN ∧
    (get_first_lv cfg4 13 <<< cfg4.PAGE_LEN) % WORD ≤ 13 >>> cfg4.OFFSET_LEN ∧
    (get_first_lv cfg4 13 <<< (cfg4.OFFSET_LEN + cfg4.PAGE_LEN) |||
      get_second_lv cfg4 13 <<< cfg4.OFFSET_LEN ||| get_offset cfg4 13) = 13 ∧
    ((get_first_lv cfg4 13 <<< (cfg4.OFFSET_LEN + cfg4.PAGE_LEN)) % WORD |||
      (get_second_lv cfg4 13 <<< cfg4.OFFSET_LEN) % WORD ||| get_offset cfg4 13) = 13 ∧
    get_offset cfg4 13 = 13 % 2 ^ cfg4.OFFSET_LEN ∧
    get_second_lv cfg4 13 = 13 / 2 ^ cfg4.OFFSET_LEN % 2 ^ cfg4.PAGE_LEN ∧
    get_first_lv cfg4 13 = 13 / 2 ^ (cfg4.OFFSET_LEN + cfg4.PAGE_LEN)) :=
  ⟨by decide, address_decomposition cfg4 13 (by decide)⟩

/-! ## The marking loop in any store: first fit and early returns -/

/-- Inversion of `alloc_mem` after a successful scan: the result is built from
what the marking loop returns. -/
theorem alloc_mem_of_scan (cfg : Config) (size : Nat) (st : Store) (proc : pcb_t)
    (r : alloc_result) (i count : Nat)
    (hs : scan cfg st.mem_stat (num_pages_of cfg size) = some (i, count))
    (h : alloc_mem cfg size st proc = some r) :
    ∃ status stat1 seg1,
      mark_loop cfg proc.pid (i + 1 - count) (i + 1) (i + 1 + 1 - (i + 1 - count))
        (i + 1 - count) st.mem_stat proc.seg_table = some (status, stat1, seg1) ∧
      r.status = status ∧ r.store.mem_stat = stat1 ∧ r.store.ram = st.ram ∧
      r.proc.seg_table = seg1 ∧ r.proc.pid = proc.pid ∧
      r.proc.bp = (proc.bp + num_pages_of cfg size * cfg.PAGE_SIZE) % WORD ∧
      (status = alloc_status.ok → r.ret = proc.bp) ∧
      (status ≠ alloc_status.ok → r.ret = 0) := by
  unfold alloc_mem at h
  simp only [hs] at h
  cases hl : mark_loop cfg proc.pid (i + 1 - count) (i + 1) (i + 1 + 1 - (i + 1 - count))
      (i + 1 - count) st.mem_stat proc.seg_table with
  | none => rw [hl] at h; cases h
  | some res =>
    obtain ⟨status, stat1, seg1⟩ := res
    rw [hl] at h
    refine ⟨status, stat1, seg1, rfl, ?_⟩
    cases status <;> simp only [Option.some.injEq] at h <;> subst h <;> simp

theorem get_trans_table_append {α : Type} (key : α → Nat) (index : Nat) (l l2 : List α) :
    get_trans_table key index (l ++ l2) =
      match get_trans_table key index l with
      | some r => some r
      | none => (get_trans_table key index l2).map (fun r => (r.1 + l.length, r.2)) := by
  induction l with
  | nil =>
    simp only [List.nil_append, get_trans_table, List.length_nil, Nat.add_zero]
    cases get_trans_table key index l2 <;> rfl
  | cons e rest ih =>
    by_cases h : key e = index
    · simp [get_trans_table, h]
    · have hstep : get_trans_table key index (e :: (rest ++ l2)) =
          (get_trans_table key index (rest ++ l2)).map (fun r => (r.1 + 1, r.2)) := by
        simp only [get_trans_table, h, if_false]
      have hstep2 : get_trans_table key index (e :: rest) =
          (get_trans_table key index rest).map (fun r => (r.1 + 1, r.2)) := by
        simp only [get_trans_table, h, if_false]
      rw [List.cons_append, hstep, hstep2, ih]
      cases get_trans_table key index rest with
      | some r => rfl
      | none =>
        cases get_trans_table key index l2 with
        | none => rfl
        | some r2 =>
          rfl

/-- The return paths of the table extension for frame `i`: it never reports
`out_of_memory`; it reports `seg_full` only with the segment table untouched,
holding `MAX_SEG` entries, none for the first-level index; it reports
`page_full` only when the entry for the first-level index has a second-level
table of `MAX_SECOND_TABLE` entries, none for the second-level index. -/
theorem add_entries_failure (cfg : Config) (i : Nat) (seg seg1 : List seg_entry_t)
    (status : alloc_status) (h : add_entries cfg i seg = (status, seg1)) :
    status ≠ alloc_status.out_of_memory ∧
    (status = alloc_status.seg_full → seg1 = seg ∧ seg.length = cfg.MAX_SEG ∧
      get_trans_table seg_entry_t.v_index
        (get_first_lv cfg ((i <<< cfg.OFFSET_LEN) % WORD)) seg = none) ∧
    (status = alloc_status.page_full → ∃ k e,
      get_trans_table seg_entry_t.v_index
        (get_first_lv cfg ((i <<< cfg.OFFSET_LEN) % WORD)) seg1 = some (k, e) ∧
      e.page_table.length = cfg.MAX_SECOND_TABLE ∧
      get_trans_table trans_table_t.v_index
        (get_second_lv cfg ((i <<< cfg.OFFSET_LEN) % WORD)) e.page_table = none) := by
  unfold add_entries at h
  simp only at h
  cases hg : get_trans_table seg_entry_t.v_index
      (get_first_lv cfg ((i <<< cfg.OFFSET_LEN) % WORD)) seg with
  | none =>
    rw [hg] at h
    simp only at h
    by_cases h1 : seg.length = cfg.MAX_SEG
    · rw [if_pos h1] at h
      simp only [Prod.mk.injEq] at h
      obtain ⟨hs, hseg⟩ := h
      subst hs; subst hseg
      exact ⟨by decide, fun _ => ⟨rfl, h1, rfl⟩, (fun hc => by cases hc)⟩
    · rw [if_neg h1] at h
      by_cases h2 : 0 = cfg.MAX_SECOND_TABLE
      · rw [if_pos h2] at h
        simp only [Prod.mk.injEq] at h
        obtain ⟨hs, hseg⟩ := h
        subst hs; subst hseg
        refine ⟨by decide, (fun hc => by cases hc), fun _ => ?_⟩
        refine ⟨0 + seg.length,
          ⟨get_first_lv cfg ((i <<< cfg.OFFSET_LEN) % WORD), i, -1, []⟩, ?_, h2, rfl⟩
        rw [get_trans_table_append, hg]
        simp [get_trans_table]
      · rw [if_neg h2] at h
        simp only [Prod.mk.injEq] at h
        obtain ⟨hs, _⟩ := h
        subst hs
        exact ⟨by decide, (fun hc => by cases hc), (fun hc => by cases hc)⟩
  | some ke =>
    obtain ⟨k, e⟩ := ke
    rw [hg] at h
    simp only at h
    cases hg2 : get_trans_table trans_table_t.v_index
        (get_second_lv cfg ((i <<< cfg.OFFSET_LEN) % WORD)) e.page_table with
    | some x =>
      rw [hg2] at h
      simp only [Prod.mk.injEq] at h
      obtain ⟨hs, _⟩ := h
      subst hs
      exact ⟨by decide, (fun hc => by cases hc), (fun hc => by cases hc)⟩
    | none =>
      rw [hg2] at h
      simp only at h
      by_cases h1 : e.page_table.length = cfg.MAX_SECOND_TABLE
      · rw [if_pos h1] at h
        simp only [Prod.mk.injEq] at h
        obtain ⟨hs, hseg⟩ := h
        subst hs; subst hseg
        exact ⟨by decide, (fun hc => by cases hc), fun _ => ⟨k, e, hg, h1, hg2⟩⟩
      · rw [if_neg h1] at h
        simp only [Prod.mk.injEq] at h
        obtain ⟨hs, _⟩ := h
        subst hs
        exact ⟨by decide, (fun hc => by cases hc), (fun hc => by cases hc)⟩

/-- An early return of the marking loop: it happens at a frame `j` of the run,
right after frame `j` was marked, on a failing table extension for `j`. -/
theorem mark_loop_early_return (cfg : Config) (pid s e : Nat) :
    ∀ (fuel i : Nat) (stat : Nat → mem_stat_t) (seg : List seg_entry_t)
      (status : alloc_status) (stat1 : Nat → mem_stat_t) (seg1 : List seg_entry_t),
      mark_loop cfg pid s e fuel i stat seg = some (status, stat1, seg1) →
      status ≠ alloc_status.ok →
      ∃ j seg0, i ≤ j ∧ j < i + fuel ∧ j < cfg.NUM_PAGES ∧
        add_entries cfg j seg0 = (status, seg1) ∧
        (∀ f, i ≤ f → f ≤ j → (stat1 f).proc = pid) ∧
        (∀ f, f < i ∨ j < f → stat1 f = stat f) := by
  intro fuel
  induction fuel with
  | zero =>
    intro i stat seg status stat1 seg1 h hne
    simp only [mark_loop, Option.some.injEq, Prod.mk.injEq] at h
    exact absurd h.1.symm hne
  | succ fuel ih =>
    intro i stat seg status stat1 seg1 h hne
    unfold mark_loop at h
    by_cases hi : i < cfg.NUM_PAGES
    · rw [if_pos hi] at h
      simp only at h
      cases ha : add_entries cfg i seg with
      | mk st segA =>
        rw [ha] at h
        cases st with
        | ok =>
          simp only at h
          obtain ⟨j, seg0, h1, h2, h3, h4, h5, h6⟩ := ih _ _ _ _ _ _ h hne
          refine ⟨j, seg0, by omega, by omega, h3, h4, ?_, ?_⟩
          · intro f hf1 hf2
            by_cases hf : f = i
            · subst hf
              rw [h6 f (Or.inl (Nat.lt_succ_self f))]
              simp [Function.update_same]
            · exact h5 f (by omega) hf2
          · intro f hf
            have hfi : f ≠ i := by omega
            rw [h6 f (by omega), Function.update_noteq hfi]
        | out_of_memory | seg_full | page_full =>
          simp only [Option.some.injEq, Prod.mk.injEq] at h
          obtain ⟨h1, h2, h3⟩ := h
          subst h1; subst h2; subst h3
          refine ⟨i, seg, le_refl _, by omega, hi, ha, ?_, ?_⟩
          · intro f hf1 hf2
            have hf : f = i := by omega
            subst hf
            simp [Function.update_same]
          · intro f hf
            have hfi : f ≠ i := by omega
            rw [Function.update_noteq hfi]
    · rw [if_neg hi] at h
      cases h

/-- The capacity returns, read backwards. When `alloc_mem` returns through
one of the capacity checks (segment table full at line 163, second-level table
full at line 192), it returns 0, the break pointer has been advanced by
`num_pages * PAGE_SIZE`, and the scan had found a run: the return happened at
a frame `j` of the marking loop, every frame from `start_index` to `j` has the
caller's pid as owner after the call, and every other frame is as before.
A return for a full segment table leaves a segment table of `MAX_SEG` entries
with none for the first-level index of `j`; a return for a full second-level
table leaves, for that index, an entry whose table has `MAX_SECOND_TABLE`
entries and none for the second-level index of `j`. -/
theorem alloc_mem_no_rollback (cfg : Config) (size : Nat) (st : Store) (proc : pcb_t)
    (r : alloc_result) (h : alloc_mem cfg size st proc = some r)
    (hfail : r.status = alloc_status.seg_full ∨ r.status = alloc_status.page_full) :
    r.ret = 0 ∧
    r.proc.bp = (proc.bp + num_pages_of cfg size * cfg.PAGE_SIZE) % WORD ∧
    ∃ i count j, scan cfg st.mem_stat (num_pages_of cfg size) = some (i, count) ∧
      i + 1 - count ≤ j ∧ j ≤ i + 1 ∧ j < cfg.NUM_PAGES ∧
      (∀ f, i + 1 - count ≤ f → f ≤ j → (r.store.mem_stat f).proc = proc.pid) ∧
      (∀ f, f < i + 1 - count ∨ j < f → r.store.mem_stat f = st.mem_stat f) ∧
      (r.status = alloc_status.seg_full → r.proc.seg_table.length = cfg.MAX_SEG ∧
        get_trans_table seg_entry_t.v_index
          (get_first_lv cfg ((j <<< cfg.OFFSET_LEN) % WORD)) r.proc.seg_table = none) ∧
      (r.status = alloc_status.page_full → ∃ k e,
        get_trans_table seg_entry_t.v_index
          (get_first_lv cfg ((j <<< cfg.OFFSET_LEN) % WORD)) r.proc.seg_table = some (k, e) ∧
        e.page_table.length = cfg.MAX_SECOND_TABLE ∧
        get_trans_table trans_table_t.v_index
          (get_second_lv cfg ((j <<< cfg.OFFSET_LEN) % WORD)) e.page_table = none) := by
  cases hs : scan cfg st.mem_stat (num_pages_of cfg size) with
  | none =>
    unfold alloc_mem at h
    simp only [hs, Option.some.injEq] at h
    subst h
    rcases hfail with hf | hf <;> cases hf
  | some ic =>
    obtain ⟨i, count⟩ := ic
    obtain ⟨status, stat1, seg1, hl, hstatus, hstat, _, hseg, _, hbp, _, hret⟩ :=
      alloc_mem_of_scan cfg size st proc r i count hs h
    have hne : status ≠ alloc_status.ok := by
      rw [← hstatus]
      rcases hfail with hf | hf <;> rw [hf] <;> decide
    obtain ⟨j, seg0, h1, h2, h3, h4, h5, h6⟩ :=
      mark_loop_early_return cfg _ _ _ _ _ _ _ _ _ _ hl hne
    obtain ⟨_, hsf, hpf⟩ := add_entries_failure cfg j seg0 seg1 status h4
    have hcnt := (scan_loop_count_le st.mem_stat _ cfg.NUM_PAGES 0 0 i count (le_refl _) hs).1
    refine ⟨hret hne, hbp, i, count, j, rfl, h1, by omega, h3, ?_, ?_, ?_, ?_⟩
    · rw [hstat]; exact h5
    · rw [hstat]; exact h6
    · intro hst
      rw [hstatus] at hst
      obtain ⟨e1, e2, e3⟩ := hsf hst
      rw [hseg, e1]
      exact ⟨e2, e3⟩
    · intro hst
      rw [hstatus] at hst
      rw [hseg]
      exact hpf hst

theorem alloc_mem_no_rollback_witness :
    (alloc_mem cfg_one_seg 4 init_mem (fresh_proc 1) = some result_one_seg ∧
      (result_one_seg.status = alloc_status.seg_full ∨
        result_one_seg.status = alloc_status.page_full)) ∧
    (result_one_seg.ret = 0 ∧
    result_one_seg.proc.bp =
      ((fresh_proc 1).bp + num_pages_of cfg_one_seg 4 * cfg_one_seg.PAGE_SIZE) % WORD ∧
    ∃ i count j, scan cfg_one_seg init_mem.mem_stat (num_pages_of cfg_one_seg 4) =
        some (i, count) ∧
      i + 1 - count ≤ j ∧ j ≤ i + 1 ∧ j < cfg_one_seg.NUM_PAGES ∧
      (∀ f, i + 1 - count ≤ f → f ≤ j →
        (result_one_seg.store.mem_stat f).proc = (fresh_proc 1).pid) ∧
      (∀ f, f < i + 1 - count ∨ j < f →
        result_one_seg.store.mem_stat f = init_mem.mem_stat f) ∧
      (result_one_seg.status = alloc_status.seg_full →
        result_one_seg.proc.seg_table.length = cfg_one_seg.MAX_SEG ∧
        get_trans_table seg_entry_t.v_index
          (get_first_lv cfg_one_seg ((j <<< cfg_one_seg.OFFSET_LEN) % WORD))
          result_one_seg.proc.seg_table = none) ∧
      (result_one_seg.status = alloc_status.page_full → ∃ k e,
        get_trans_table seg_entry_t.v_index
          (get_first_lv cfg_one_seg ((j <<< cfg_one_seg.OFFSET_LEN) % WORD))
          result_one_seg.proc.seg_table = some (k, e) ∧
        e.page_table.length = cfg_one_seg.MAX_SECOND_TABLE ∧
        get_trans_table trans_table_t.v_index
          (get_second_lv cfg_one_seg ((j <<< cfg_one_seg.OFFSET_LEN) % WORD))
          e.page_table = none)) :=
  ⟨⟨rfl, by decide⟩,
    alloc_mem_no_rollback cfg_one_seg 4 init_mem (fresh_proc 1) result_one_seg rfl (by decide)⟩

/-! ## What the table extension keeps -/

/-- Whenever the checked loop returns, the unchecked loop returns the same. -/
theorem mark_loop_some_raw (cfg : Config) (pid s e : Nat) :
    ∀ (fuel i : Nat) (stat : Nat → mem_stat_t) (seg : List seg_entry_t)
      (res : alloc_status × (Nat → mem_stat_t) × List seg_entry_t),
      mark_loop cfg pid s e fuel i stat seg = some res →
      mark_loop_raw cfg pid s e fuel i stat seg = res := by
  intro fuel
  induction fuel with
  | zero =>
    intro i stat seg res h
    simp only [mark_loop, Option.some.injEq] at h
    simp only [mark_loop_raw, h]
  | succ fuel ih =>
    intro i stat seg res h
    unfold mark_loop at h
    unfold mark_loop_raw
    by_cases hi : i < cfg.NUM_PAGES
    · rw [if_pos hi] at h
      simp only at h ⊢
      cases ha : add_entries cfg i seg with
      | mk st segA =>
        rw [ha] at h
        cases st with
        | ok => exact ih _ _ _ _ h
        | out_of_memory | seg_full | page_full =>
          simp only [Option.some.injEq] at h
          exact h
    · rw [if_neg hi] at h
      cases h

/-- A loop whose indices all lie inside the table returns, and returns what
the unchecked loop returns. -/
theorem mark_loop_in_table (cfg : Config) (pid s e : Nat) :
    ∀ (fuel i : Nat) (stat : Nat → mem_stat_t) (seg : List seg_entry_t),
      i + fuel ≤ cfg.NUM_PAGES →
      mark_loop cfg pid s e fuel i stat seg =
        some (mark_loop_raw cfg pid s e fuel i stat seg) := by
  intro fuel
  induction fuel with
  | zero => intro i stat seg _; rfl
  | succ fuel ih =>
    intro i stat seg h
    unfold mark_loop mark_loop_raw
    rw [if_pos (by omega)]
    simp only
    cases ha : add_entries cfg i seg with
    | mk st segA =>
      cases st with
      | ok => exact ih _ _ _ (by omega)
      | out_of_memory | seg_full | page_full => rfl

/-- The unchecked loop marks its first frame and touches no lower frame. -/
theorem mark_loop_raw_first (cfg : Config) (pid s e : Nat) :
    ∀ (fuel i : Nat) (stat : Nat → mem_stat_t) (seg : List seg_entry_t),
      (∀ f, f < i → (mark_loop_raw cfg pid s e fuel i stat seg).2.1 f = stat f) ∧
      (0 < fuel → ((mark_loop_raw cfg pid s e fuel i stat seg).2.1 i).proc = pid) := by
  intro fuel
  induction fuel with
  | zero =>
    intro i stat seg
    exact ⟨fun f _ => rfl, fun h => absurd h (lt_irrefl _)⟩
  | succ fuel ih =>
    intro i stat seg
    unfold mark_loop_raw
    simp only
    cases ha : add_entries cfg i seg with
    | mk st segA =>
      cases st with
      | ok =>
        simp only
        obtain ⟨h1, _⟩ := ih (i + 1)
          (Function.update stat i
            ⟨pid, (i : Int) - (s : Int), if i = e then -1 else (i : Int) + 1⟩) segA
        constructor
        · intro f hf
          rw [h1 f (by omega), Function.update_noteq (by omega)]
        · intro _
          rw [h1 i (Nat.lt_succ_self i)]
          simp [Function.update_same]
      | out_of_memory | seg_full | page_full =>
        simp only
        constructor
        · intro f hf
          rw [Function.update_noteq (by omega)]
        · intro _
          simp [Function.update_same]

/-- Inversion of `alloc_mem_raw` after a successful scan. -/
theorem alloc_mem_raw_of_scan (cfg : Config) (size : Nat) (st : Store) (proc : pcb_t)
    (i count : Nat)
    (hs : scan cfg st.mem_stat (num_pages_of cfg size) = some (i, count)) :
    (alloc_mem_raw cfg size st proc).status =
      (mark_loop_raw cfg proc.pid (i + 1 - count) (i + 1) (i + 1 + 1 - (i + 1 - count))
        (i + 1 - count) st.mem_stat proc.seg_table).1 ∧
    (alloc_mem_raw cfg size st proc).store.mem_stat =
      (mark_loop_raw cfg proc.pid (i + 1 - count) (i + 1) (i + 1 + 1 - (i + 1 - count))
        (i + 1 - count) st.mem_stat proc.seg_table).2.1 ∧
    (alloc_mem_raw cfg size st proc).proc.seg_table =
      (mark_loop_raw cfg proc.pid (i + 1 - count) (i + 1) (i + 1 + 1 - (i + 1 - count))
        (i + 1 - count) st.mem_stat proc.seg_table).2.2 ∧
    (alloc_mem_raw cfg size st proc).store.ram = st.ram ∧
    (alloc_mem_raw cfg size st proc).proc.pid = proc.pid ∧
    (alloc_mem_raw cfg size st proc).proc.bp =
      (proc.bp + num_pages_of cfg size * cfg.PAGE_SIZE) % WORD ∧
    ((alloc_mem_raw cfg size st proc).status = alloc_status.ok →
      (alloc_mem_raw cfg size st proc).ret = proc.bp) ∧
    ((alloc_mem_raw cfg size st proc).status ≠ alloc_status.ok →
      (alloc_mem_raw cfg size st proc).ret = 0) := by
  unfold alloc_mem_raw
  simp only [hs]
  cases hl : mark_loop_raw cfg proc.pid (i + 1 - count) (i + 1) (i + 1 + 1 - (i + 1 - count))
      (i + 1 - count) st.mem_stat proc.seg_table with
  | mk status rest =>
    obtain ⟨stat1, seg1⟩ := rest
    cases status <;> simp

/-- Whenever the checked call returns, the unchecked call returns the same. -/
theorem alloc_mem_some_raw (cfg : Config) (size : Nat) (st : Store) (proc : pcb_t)
    (r : alloc_result) (h : alloc_mem cfg size st proc = some r) :
    alloc_mem_raw cfg size st proc = r := by
  unfold alloc_mem at h
  unfold alloc_mem_raw
  simp only at h ⊢
  cases hs : scan cfg st.mem_stat (num_pages_of cfg size) with
  | none =>
    rw [hs] at h
    simp only [Option.some.injEq] at h
    exact h
  | some ic =>
    obtain ⟨i, count⟩ := ic
    rw [hs] at h
    simp only at h ⊢
    cases hl : mark_loop cfg proc.pid (i + 1 - count) (i + 1) (i + 1 + 1 - (i + 1 - count))
        (i + 1 - count) st.mem_stat proc.seg_table with
    | none => rw [hl] at h; cases h
    | some res =>
      rw [hl] at h
      rw [mark_loop_some_raw cfg _ _ _ _ _ _ _ res hl]
      obtain ⟨status, stat1, seg1⟩ := res
      cases status <;> simp only [Option.some.injEq] at h <;> exact h

/-- When the checked loop of a call returns what the unchecked loop returns, so
does the call. -/
theorem alloc_mem_of_loop (cfg : Config) (size : Nat) (st : Store) (proc : pcb_t)
    (i count : Nat)
    (hs : scan cfg st.mem_stat (num_pages_of cfg size) = some (i, count))
    (hl : mark_loop cfg proc.pid (i + 1 - count) (i + 1) (i + 1 + 1 - (i + 1 - count))
        (i + 1 - count) st.mem_stat proc.seg_table =
      some (mark_loop_raw cfg proc.pid (i + 1 - count) (i + 1) (i + 1 + 1 - (i + 1 - count))
        (i + 1 - count) st.mem_stat proc.seg_table)) :
    alloc_mem cfg size st proc = some (alloc_mem_raw cfg size st proc) := by
  unfold alloc_mem alloc_mem_raw
  simp only [hs]
  rw [hl]
  cases hr : mark_loop_raw cfg proc.pid (i + 1 - count) (i + 1) (i + 1 + 1 - (i + 1 - count))
      (i + 1 - count) st.mem_stat proc.seg_table with
  | mk status rest =>
    obtain ⟨stat1, seg1⟩ := rest
    cases status <;> rfl

/-- A call whose marking loop stays inside the table returns, and returns what
the unchecked call returns. -/
theorem alloc_mem_in_table (cfg : Config) (size : Nat) (st : Store) (proc : pcb_t)
    (i count : Nat)
    (hs : scan cfg st.mem_stat (num_pages_of cfg size) = some (i, count))
    (hin : i + 1 < cfg.NUM_PAGES) :
    alloc_mem cfg size st proc = some (alloc_mem_raw cfg size st proc) := by
  have hcnt := (scan_loop_count_le st.mem_stat _ cfg.NUM_PAGES 0 0 i count (le_refl _) hs).1
  exact alloc_mem_of_loop cfg size st proc i count hs
    (mark_loop_in_table cfg _ _ _ _ _ _ _ (by omega))

/-- The capacity checks, read forwards: with a full segment table and no entry
for the first-level index, the table extension returns at line 166. -/
theorem add_entries_seg_full (cfg : Config) (j : Nat) (seg : List seg_entry_t)
    (h : seg_table_full cfg j seg) :
    add_entries cfg j seg = (alloc_status.seg_full, seg) := by
  obtain ⟨h1, h2⟩ := h
  unfold add_entries
  simp only [h1, h2, if_true]

/-- With a full second-level table and no entry for the second-level index, the
table extension returns at line 195. -/
theorem add_entries_page_full (cfg : Config) (j : Nat) (seg : List seg_entry_t)
    (h : page_table_full cfg j seg) :
    ∃ seg1, add_entries cfg j seg = (alloc_status.page_full, seg1) := by
  rcases h with ⟨k, e, h1, h2, h3⟩ | ⟨h1, h2, h3⟩
  · refine ⟨seg, ?_⟩
    unfold add_entries
    simp only [h1, h2, h3, if_true]
  · refine ⟨seg ++ [⟨get_first_lv cfg ((j <<< cfg.OFFSET_LEN) % WORD), j, -1, []⟩], ?_⟩
    unfold add_entries
    simp only [h1]
    rw [if_neg h2, if_pos h3]

/-- The unchecked loop on a capacity failure at the frame `i + d`: it returns
there with that status, every frame from `i` to `i + d` marked and no other
frame touched; and the checked loop returns the same when `i + d` is a frame
of the table. -/
theorem mark_loop_raw_capacity (cfg : Config) (pid s e : Nat) :
    ∀ (d i fuel : Nat) (stat : Nat → mem_stat_t) (seg segj seg1 : List seg_entry_t)
      (status : alloc_status), d < fuel → tables_before cfg d i seg = some segj →
      add_entries cfg (i + d) segj = (status, seg1) → status ≠ alloc_status.ok →
      (mark_loop_raw cfg pid s e fuel i stat seg).1 = status ∧
      (∀ f, i ≤ f → f ≤ i + d →
        ((mark_loop_raw cfg pid s e fuel i stat seg).2.1 f).proc = pid) ∧
      (∀ f, f < i ∨ i + d < f →
        (mark_loop_raw cfg pid s e fuel i stat seg).2.1 f = stat f) ∧
      (i + d < cfg.NUM_PAGES →
        mark_loop cfg pid s e fuel i stat seg =
          some (mark_loop_raw cfg pid s e fuel i stat seg)) := by
  intro d
  induction d with
  | zero =>
    intro i fuel stat seg segj seg1 status hd hb ha hne
    simp only [tables_before, Option.some.injEq] at hb
    subst hb
    rw [Nat.add_zero] at ha
    obtain ⟨fuel1, rfl⟩ : ∃ n, fuel = n + 1 := ⟨fuel - 1, by omega⟩
    unfold mark_loop mark_loop_raw
    simp only [ha]
    cases status with
    | ok => exact absurd rfl hne
    | out_of_memory | seg_full | page_full =>
      refine ⟨trivial, ?_, ?_, ?_⟩
      · intro f h1 h2
        have hf : f = i := by omega
        subst hf
        simp [Function.update_same]
      · intro f hf
        rw [Function.update_noteq (by omega)]
      · intro hi
        rw [if_pos (by omega)]
  | succ d ih =>
    intro i fuel stat seg segj seg1 status hd hb ha hne
    obtain ⟨fuel1, rfl⟩ : ∃ n, fuel = n + 1 := ⟨fuel - 1, by omega⟩
    unfold tables_before at hb
    cases hA : add_entries cfg i seg with
    | mk st segA =>
      rw [hA] at hb
      cases st with
      | out_of_memory | seg_full | page_full => simp at hb
      | ok =>
        simp only at hb
        rw [show i + (d + 1) = i + 1 + d by omega] at ha
        obtain ⟨h1, h2, h3, h4⟩ := ih (i + 1) fuel1
          (Function.update stat i
            ⟨pid, (i : Int) - (s : Int), if i = e then -1 else (i : Int) + 1⟩)
          segA segj seg1 status (by omega) hb ha hne
        unfold mark_loop mark_loop_raw
        simp only [hA]
        refine ⟨h1, ?_, ?_, ?_⟩
        · intro f hf1 hf2
          by_cases hfi : f = i
          · subst hfi
            rw [h3 f (Or.inl (Nat.lt_succ_self f))]
            simp [Function.update_same]
          · exact h2 f (by omega) (by omega)
        · intro f hf
          rw [h3 f (by omega), Function.update_noteq (by omega)]
        · intro hi
          rw [if_pos (by omega)]
          exact h4 (by omega)

/-- C14. First-fit placement. Whenever the scan of `alloc_mem` finds a run, of
`count` frames ending at `i`, the marking loop starts at
`start_index = i + 1 - count`, and this is the smallest index `s` such that
frames `s .. s + count - 1` all have owner 0 before the call. The call gives
frame `start_index` to the caller and leaves every lower frame as it was: so
does every checked call that returns, so does the call with the write to
`_mem_stat` unchecked, which always returns, and the checked call returns that
same result whenever `end_index = i + 1` is a frame of the table. -/
theorem alloc_mem_first_fit (cfg : Config) (size : Nat) (st : Store) (proc : pcb_t)
    (i count : Nat)
    (hs : scan cfg st.mem_stat (num_pages_of cfg size) = some (i, count)) :
    count = num_pages_of cfg size ∧ 1 ≤ count ∧ i < cfg.NUM_PAGES ∧
    (assigned_frames cfg size st.mem_stat).head? = some (i + 1 - count) ∧
    (∀ f, i + 1 - count ≤ f → f < i + 1 - count + count → (st.mem_stat f).proc = 0) ∧
    (∀ s, s < i + 1 - count →
      ¬ ∀ f, s ≤ f → f < s + count → (st.mem_stat f).proc = 0) ∧
    (∀ r, alloc_mem cfg size st proc = some r →
      (r.store.mem_stat (i + 1 - count)).proc = proc.pid ∧
      ∀ f, f < i + 1 - count → r.store.mem_stat f = st.mem_stat f) ∧
    ((alloc_mem_raw cfg size st proc).store.mem_stat (i + 1 - count)).proc = proc.pid ∧
    (∀ f, f < i + 1 - count →
      (alloc_mem_raw cfg size st proc).store.mem_stat f = st.mem_stat f) ∧
    (i + 1 < cfg.NUM_PAGES →
      alloc_mem cfg size st proc = some (alloc_mem_raw cfg size st proc)) := by
  have hn : 1 ≤ num_pages_of cfg size := by
    rcases Nat.eq_zero_or_pos (num_pages_of cfg size) with h0 | h0
    · rw [h0, scan_zero] at hs; cases hs
    · exact h0
  obtain ⟨hc, hi, hle, hfree, hmin⟩ := scan_eq_some cfg st.mem_stat _ i count hn hs
  rw [← hc] at hn hle hfree hmin
  obtain ⟨_, araw, _⟩ := alloc_mem_raw_of_scan cfg size st proc i count hs
  obtain ⟨hlow, hfirst⟩ := mark_loop_raw_first cfg proc.pid (i + 1 - count) (i + 1)
    (i + 1 + 1 - (i + 1 - count)) (i + 1 - count) st.mem_stat proc.seg_table
  refine ⟨hc, hn, hi, ?_, hfree, hmin, ?_, ?_, ?_, ?_⟩
  · simp only [assigned_frames, hs]
    rw [show i + 1 + 1 - (i + 1 - count) = (count + 1) by omega]
    rfl
  · intro r hr
    obtain ⟨status, stat1, seg1, hl, _, hstat, _⟩ :=
      alloc_mem_of_scan cfg size st proc r i count hs hr
    obtain ⟨w, _, _, _, hpos, hin, hout, _⟩ := mark_loop_spec cfg _ _ _ _ _ _ _ _ _ _ hl
    have hw := hpos (by omega)
    rw [hstat]
    refine ⟨?_, fun f hf => hout f (Or.inl hf)⟩
    rw [(hin (i + 1 - count) (le_refl _) hw).2]
  · rw [araw]; exact hfirst (by omega)
  · intro f hf; rw [araw]; exact hlow f hf
  · exact alloc_mem_in_table cfg size st proc i count hs

theorem alloc_mem_first_fit_witness :
    (owners store_gaps.mem_stat 8 = [1, 0, 2, 0, 0, 0, 0, 0] ∧
      scan cfg8 store_gaps.mem_stat (num_pages_of cfg8 9) = some (4, 2)) ∧
    (2 = num_pages_of cfg8 9 ∧ 1 ≤ 2 ∧ 4 < cfg8.NUM_PAGES ∧
    (assigned_frames cfg8 9 store_gaps.mem_stat).head? = some (4 + 1 - 2) ∧
    (∀ f, 4 + 1 - 2 ≤ f → f < 4 + 1 - 2 + 2 → (store_gaps.mem_stat f).proc = 0) ∧
    (∀ s, s < 4 + 1 - 2 →
      ¬ ∀ f, s ≤ f → f < s + 2 → (store_gaps.mem_stat f).proc = 0) ∧
    (∀ r, alloc_mem cfg8 9 store_gaps (fresh_proc 3) = some r →
      (r.store.mem_stat (4 + 1 - 2)).proc = (fresh_proc 3).pid ∧
      ∀ f, f < 4 + 1 - 2 → r.store.mem_stat f = store_gaps.mem_stat f) ∧
    ((alloc_mem_raw cfg8 9 store_gaps (fresh_proc 3)).store.mem_stat (4 + 1 - 2)).proc =
      (fresh_proc 3).pid ∧
    (∀ f, f < 4 + 1 - 2 →
      (alloc_mem_raw cfg8 9 store_gaps (fresh_proc 3)).store.mem_stat f =
        store_gaps.mem_stat f) ∧
    (4 + 1 < cfg8.NUM_PAGES →
      alloc_mem cfg8 9 store_gaps (fresh_proc 3) =
        some (alloc_mem_raw cfg8 9 store_gaps (fresh_proc 3)))) :=
  ⟨⟨by decide, by decide⟩,
    alloc_mem_first_fit cfg8 9 store_gaps (fresh_proc 3) 4 2 (by decide)⟩

/-- C15. No rollback on a capacity failure. Let the scan find a run, let the
marking loop reach a frame `j` of its range, every table extension before `j`
done, and let the segment table then hold `MAX_SEG` entries with a new entry
needed, or the relevant second-level table hold `MAX_SECOND_TABLE` entries with
a new entry needed. Then the call returns 0 (at line 166, respectively 195),
the break pointer stays advanced by `num_pages * PAGE_SIZE`, every frame from
`start_index` to `j` has the caller's pid as owner after the call, and no other
frame and no byte of the arena has changed. The call is taken with the write to
`_mem_stat` unchecked; when `j` is a frame of the table, the checked call
returns exactly this result. -/
theorem alloc_mem_capacity_no_rollback (cfg : Config) (size : Nat) (st : Store)
    (proc : pcb_t) (i count j : Nat) (segj : List seg_entry_t)
    (hs : scan cfg st.mem_stat (num_pages_of cfg size) = some (i, count))
    (hj1 : i + 1 - count ≤ j) (hj2 : j ≤ i + 1)
    (hbefore : tables_before cfg (j - (i + 1 - count)) (i + 1 - count) proc.seg_table =
      some segj)
    (hcap : seg_table_full cfg j segj ∨ page_table_full cfg j segj) :
    (alloc_mem_raw cfg size st proc).ret = 0 ∧
    (seg_table_full cfg j segj →
      (alloc_mem_raw cfg size st proc).status = alloc_status.seg_full) ∧
    (page_table_full cfg j segj →
      (alloc_mem_raw cfg size st proc).status = alloc_status.page_full) ∧
    (alloc_mem_raw cfg size st proc).proc.bp =
      (proc.bp + num_pages_of cfg size * cfg.PAGE_SIZE) % WORD ∧
    (∀ f, i + 1 - count ≤ f → f ≤ j →
      ((alloc_mem_raw cfg size st proc).store.mem_stat f).proc = proc.pid) ∧
    (∀ f, f < i + 1 - count ∨ j < f →
      (alloc_mem_raw cfg size st proc).store.mem_stat f = st.mem_stat f) ∧
    (alloc_mem_raw cfg size st proc).store.ram = st.ram ∧
    (j < cfg.NUM_PAGES →
      alloc_mem cfg size st proc = some (alloc_mem_raw cfg size st proc)) := by
  have hjd : i + 1 - count + (j - (i + 1 - count)) = j := by omega
  have key : ∀ (status : alloc_status) (seg1 : List seg_entry_t),
      add_entries cfg j segj = (status, seg1) → status ≠ alloc_status.ok →
      (alloc_mem_raw cfg size st proc).ret = 0 ∧
      (alloc_mem_raw cfg size st proc).status = status ∧
      (alloc_mem_raw cfg size st proc).proc.bp =
        (proc.bp + num_pages_of cfg size * cfg.PAGE_SIZE) % WORD ∧
      (∀ f, i + 1 - count ≤ f → f ≤ j →
        ((alloc_mem_raw cfg size st proc).store.mem_stat f).proc = proc.pid) ∧
      (∀ f, f < i + 1 - count ∨ j < f →
        (alloc_mem_raw cfg size st proc).store.mem_stat f = st.mem_stat f) ∧
      (alloc_mem_raw cfg size st proc).store.ram = st.ram ∧
      (j < cfg.NUM_PAGES →
        alloc_mem cfg size st proc = some (alloc_mem_raw cfg size st proc)) := by
    intro status seg1 hadd hne
    rw [← hjd] at hadd
    obtain ⟨h1, h2, h3, h4⟩ := mark_loop_raw_capacity cfg proc.pid (i + 1 - count) (i + 1)
      (j - (i + 1 - count)) (i + 1 - count) (i + 1 + 1 - (i + 1 - count)) st.mem_stat
      proc.seg_table segj seg1 status (by omega) hbefore hadd hne
    rw [hjd] at h2 h3 h4
    obtain ⟨a1, a2, _, a4, _, a6, _, a8⟩ := alloc_mem_raw_of_scan cfg size st proc i count hs
    have hst : (alloc_mem_raw cfg size st proc).status = status := by rw [a1, h1]
    refine ⟨a8 (by rw [hst]; exact hne), hst, a6, ?_, ?_, a4, ?_⟩
    · rw [a2]; exact h2
    · rw [a2]; exact h3
    · intro hj
      exact alloc_mem_of_loop cfg size st proc i count hs (h4 hj)
  rcases hcap with hseg | hpage
  · obtain ⟨b1, b2, b3, b4, b5, b6, b7⟩ :=
      key _ _ (add_entries_seg_full cfg j segj hseg) (by decide)
    refine ⟨b1, fun _ => b2, ?_, b3, b4, b5, b6, b7⟩
    intro hpage
    exfalso
    rcases hpage with ⟨k, e, c1, _, _⟩ | ⟨_, c2, _⟩
    · rw [hseg.1] at c1; cases c1
    · exact c2 hseg.2
  · obtain ⟨seg1, hadd⟩ := add_entries_page_full cfg j segj hpage
    obtain ⟨b1, b2, b3, b4, b5, b6, b7⟩ := key _ _ hadd (by decide)
    refine ⟨b1, ?_, fun _ => b2, b3, b4, b5, b6, b7⟩
    intro hseg
    exfalso
    rcases hpage with ⟨k, e, c1, _, _⟩ | ⟨_, c2, _⟩
    · rw [hseg.1] at c1; cases c1
    · exact c2 hseg.2

theorem alloc_mem_capacity_no_rollback_witness :
    (scan cfg_one_seg init_mem.mem_stat (num_pages_of cfg_one_seg 4) = some (1, 2) ∧
      tables_before cfg_one_seg 2 0 (fresh_proc 1).seg_table =
        some [⟨0, 0, -1, [⟨0, 0, -1⟩, ⟨1, 1, -1⟩]⟩] ∧
      (alloc_mem_raw cfg_one_seg 4 init_mem (fresh_proc 1)).ret = 0 ∧
      (alloc_mem_raw cfg_one_seg 4 init_mem (fresh_proc 1)).status = alloc_status.seg_full ∧
      (∀ f, 0 ≤ f → f ≤ 2 →
        ((alloc_mem_raw cfg_one_seg 4 init_mem (fresh_proc 1)).store.mem_stat f).proc = 1) ∧
      alloc_mem cfg_one_seg 4 init_mem (fresh_proc 1) =
        some (alloc_mem_raw cfg_one_seg 4 init_mem (fresh_proc 1))) ∧
    (scan cfg_one_page init_mem.mem_stat (num_pages_of cfg_one_page 6) = some (0, 1) ∧
      tables_before cfg_one_page 1 0 (fresh_proc 1).seg_table =
        some [⟨0, 0, -1, [⟨0, 0, -1⟩]⟩] ∧
      (alloc_mem_raw cfg_one_page 6 init_mem (fresh_proc 1)).ret = 0 ∧
      (alloc_mem_raw cfg_one_page 6 init_mem (fresh_proc 1)).status =
        alloc_status.page_full ∧
      (∀ f, 0 ≤ f → f ≤ 1 →
        ((alloc_mem_raw cfg_one_page 6 init_mem (fresh_proc 1)).store.mem_stat f).proc = 1) ∧
      alloc_mem cfg_one_page 6 init_mem (fresh_proc 1) =
        some (alloc_mem_raw cfg_one_page 6 init_mem (fresh_proc 1))) ∧
    (scan cfg4 init_mem.mem_stat (num_pages_of cfg4 12) = some (3, 4) ∧
      tables_before cfg4 4 0 (fresh_proc 1).seg_table =
        some [⟨0, 0, -1, [⟨0, 0, -1⟩, ⟨1, 1, -1⟩]⟩, ⟨1, 2, -1, [⟨0, 2, -1⟩, ⟨1, 3, -1⟩]⟩] ∧
      (alloc_mem_raw cfg4 12 init_mem (fresh_proc 1)).ret = 0 ∧
      (alloc_mem_raw cfg4 12 init_mem (fresh_proc 1)).status = alloc_status.seg_full ∧
      (alloc_mem_raw cfg4 12 init_mem (fresh_proc 1)).proc.bp = 16 ∧
      (∀ f, 0 ≤ f → f ≤ 4 →
        ((alloc_mem_raw cfg4 12 init_mem (fresh_proc 1)).store.mem_stat f).proc = 1)) :=
  have w1 := alloc_mem_capacity_no_rollback cfg_one_seg 4 init_mem (fresh_proc 1) 1 2 2
    [⟨0, 0, -1, [⟨0, 0, -1⟩, ⟨1, 1, -1⟩]⟩] (by decide) (by decide) (by decide) (by decide)
    (Or.inl ⟨by decide, by decide⟩)
  have w2 := alloc_mem_capacity_no_rollback cfg_one_page 6 init_mem (fresh_proc 1) 0 1 1
    [⟨0, 0, -1, [⟨0, 0, -1⟩]⟩] (by decide) (by decide) (by decide) (by decide)
    (Or.inr (Or.inl ⟨0, ⟨0, 0, -1, [⟨0, 0, -1⟩]⟩, by decide, by decide, by decide⟩))
  have w3 := alloc_mem_capacity_no_rollback cfg4 12 init_mem (fresh_proc 1) 3 4 4
    [⟨0, 0, -1, [⟨0, 0, -1⟩, ⟨1, 1, -1⟩]⟩, ⟨1, 2, -1, [⟨0, 2, -1⟩, ⟨1, 3, -1⟩]⟩]
    (by decide) (by decide) (by decide) (by decide) (Or.inl ⟨by decide, by decide⟩)
  ⟨⟨by decide, by decide, w1.1, w1.2.1 ⟨by decide, by decide⟩, w1.2.2.2.2.1,
      w1.2.2.2.2.2.2.2 (by decide)⟩,
    ⟨by decide, by decide, w2.1,
      w2.2.2.1 (Or.inl ⟨0, ⟨0, 0, -1, [⟨0, 0, -1⟩]⟩, by decide, by decide, by decide⟩),
      w2.2.2.2.2.1, w2.2.2.2.2.2.2.2 (by decide)⟩,
    ⟨by decide, by decide, w3.1, w3.2.1 ⟨by decide, by decide⟩, w3.2.2.2.1, w3.2.2.2.2.1⟩⟩

/-- C6, the code at a failing input. On the four-frame store process 1
(pid 1) requests 4 bytes and is given frames 0..2; process 2 (pid 2, fresh)
then requests 6 bytes. The second call returns successfully, and the tables it
leaves to process 2 hold the frame numbers 3 and 4: frame number 4 is
`NUM_PAGES`, no frame of the frame-status table, so no owner is recorded for
it there. -/
theorem alloc_mem_table_holds_frame_past_table :
    (sys_alloc cfg4 4 0 (init_sys procs12)).map
      (fun rs => (rs.1.status, owners rs.2.store.mem_stat 4)) =
      some (alloc_status.ok, [1, 1, 1, 0]) ∧
    (sys_alloc cfg4 4 0 (init_sys procs12)).map
      (fun rs => ((alloc_mem_raw cfg4 6 rs.2.store (fresh_proc 2)).status,
        (alloc_mem_raw cfg4 6 rs.2.store (fresh_proc 2)).ret)) =
      some (alloc_status.ok, 0) ∧
    (sys_alloc cfg4 4 0 (init_sys procs12)).map
      (fun rs => (alloc_mem_raw cfg4 6 rs.2.store (fresh_proc 2)).proc.seg_table.map
        (fun e => e.page_table.map (fun x => x.p_index))) =
      some [[3], [4]] ∧
    cfg4.NUM_PAGES = 4 :=
  ⟨by decide, by decide, by decide, by decide⟩

end MemSim
